import Mathlib

/-!
Shallow embedding of the Lovelace interpreter (src/lovelace/runtime.py).

The interpreter is line-oriented: `run_string` preprocesses the source into a
list of comment-stripped, right-trimmed, non-blank lines and executes them with
`_exec_block`, which classifies each stripped line against a fixed sequence of
regular expressions (var / mem-write / out / sleep / spawn / if / loop / fn /
return / bare call) and dispatches.  Expressions are strings evaluated by
`_eval`, modelled here by a tokenizer, a small Pratt-style parser and an AST
evaluator reproducing the behaviour of Python `eval` restricted to the
environment the source builds (conversion intrinsics plus the variable map);
`mem[...]` reads are substituted textually (with `repr` of the stored value)
before evaluation, exactly as the source's `re.sub` does.

Python-level behaviour that the source leans on but that is irrelevant to every
claim (floats, `/` and other unmodelled operators, the random intrinsics, the
`sleep`/`spawn` statements, attribute access, subscripts, comprehensions) is
mapped to a distinguished result `Res.nm` ("not modelled"): the model refuses
to assert anything about those executions instead of guessing.  All recursion
is structural (on an explicit fuel or on the input list), so every definition
evaluates by kernel reduction; `Res.fuelOut` is the fuel-exhaustion result.
-/

/-- Runtime values of the interpreted language: the subset of Python values a
Lovelace program can produce (ints, bools, strings, lists, None).  Python
floats are not modelled (no claim involves them); expressions that would
produce one evaluate to the "not modelled" result instead. -/
inductive Value where
  | int (n : Int)
  | bool (b : Bool)
  | str (s : String)
  | list (l : List Value)
  | none
deriving Repr

/-- Errors that escape `run_string`.  The source raises `RuntimeError` with a
message for its own checks; uncaught host-level exceptions (the `ValueError`
from `int(...)` on a bad value, the `TypeError` from `list(...)` on a
non-iterable, uncaught exceptions from an expression-function body) are
collapsed into the single constructor `hostExc`. -/
inductive PyErr where
  | runtime (msg : String)
  | hostExc
deriving DecidableEq, Repr

/-- Result of running a (possibly state-changing) piece of the interpreter:
success, a propagating error, fuel exhaustion of the model, or an execution
that reached un-modelled host behaviour. -/
inductive Res (α : Type) where
  | ok (a : α)
  | err (e : PyErr)
  | fuelOut
  | nm
deriving Repr

/-- Sequencing for `Res`: errors, fuel exhaustion and un-modelled results all
propagate. -/
def bindR {α β : Type} : Res α → (α → Res β) → Res β
  | .ok a, k => k a
  | .err e, _ => .err e
  | .fuelOut, _ => .fuelOut
  | .nm, _ => .nm

/-- A user-defined function: parameter names plus either a single expression
(`fn name(args) => expr`) or a body of verbatim source lines
(`fn name(args): ... end`). -/
structure Fn where
  args : List String
  expr : Option String
  body : Option (List String)
deriving Repr

/-- Association-list lookup, first binding wins (models Python dict lookup;
the update below keeps keys unique). -/
def alookup {κ α : Type} [DecidableEq κ] : List (κ × α) → κ → Option α
  | [], _ => Option.none
  | (k, v) :: rest, key => if k = key then some v else alookup rest key

/-- Association-list update: replace the first binding of the key, or append
(models Python dict item assignment). -/
def aset {κ α : Type} [DecidableEq κ] (key : κ) (v : α) : List (κ × α) → List (κ × α)
  | [] => [(key, v)]
  | (k, w) :: rest => if k = key then (k, v) :: rest else (k, w) :: aset key v rest

/-- Association-list deletion (models Python `dict.pop(key, None)`; removing
every binding of the key is equivalent because updates keep keys unique). -/
def adel {κ α : Type} [DecidableEq κ] (key : κ) (l : List (κ × α)) : List (κ × α) :=
  l.filter (fun p => !(p.1 = key : Bool))

/-- The interpreter state: variable environment, sparse memory store, function
table, and the list of values emitted by `out` (the output sink). -/
structure Interp where
  vars : List (String × Value)
  mem : List (Int × Value)
  funcs : List (String × Fn)
  output : List Value
deriving Repr

/-- The empty state of a freshly constructed interpreter. -/
def Interp.init : Interp := ⟨[], [], [], []⟩

/-- Python `\s` on the characters that can occur in a source line. -/
def isWS (c : Char) : Bool :=
  c = ' ' || c = '\t' || c = '\n' || c = '\r'

/-- Drop leading whitespace (`\s*`). -/
def dropWS : List Char → List Char
  | [] => []
  | c :: r => if isWS c then dropWS r else c :: r

/-- Require at least one whitespace character, then drop the run (`\s+`). -/
def dropWS1 : List Char → Option (List Char)
  | [] => Option.none
  | c :: r => if isWS c then some (dropWS r) else Option.none

/-- Strip trailing whitespace (Python `str.rstrip`). -/
def rstripChars (cs : List Char) : List Char :=
  (dropWS cs.reverse).reverse

/-- Strip leading and trailing whitespace (Python `str.strip`). -/
def stripChars (cs : List Char) : List Char :=
  rstripChars (dropWS cs)

/-- Match a literal prefix, returning the remainder. -/
def dropPre : List Char → List Char → Option (List Char)
  | [], cs => some cs
  | _ :: _, [] => Option.none
  | p :: ps, c :: cs => if c = p then dropPre ps cs else Option.none

/-- Start of a Python identifier (`[A-Za-z_]`; the source's regexes are
ASCII-only in practice). -/
def isIdentStart (c : Char) : Bool :=
  (('a' ≤ c && c ≤ 'z') || ('A' ≤ c && c ≤ 'Z') || c = '_')

/-- Identifier continuation character (`\w`). -/
def isIdentChar (c : Char) : Bool :=
  isIdentStart c || c.isDigit

/-- Span: longest prefix satisfying the predicate, plus the rest. -/
def spanP (p : Char → Bool) : List Char → List Char × List Char
  | [] => ([], [])
  | c :: r =>
    if p c then
      match spanP p r with
      | (tk, rest) => (c :: tk, rest)
    else ([], c :: r)

/-- Match `[A-Za-z_]\w*` at the head, returning the identifier and the rest. -/
def takeIdent : List Char → Option (String × List Char)
  | [] => Option.none
  | c :: r =>
    if isIdentStart c then
      match spanP isIdentChar r with
      | (tk, rest) => some (String.mk (c :: tk), rest)
    else Option.none

/-- Splits on every `,` (Python `str.split(",")`: empties kept, `""` gives
one empty group). -/
def splitComma : List Char → List (List Char)
  | [] => [[]]
  | ',' :: r => [] :: splitComma r
  | c :: r =>
    match splitComma r with
    | [] => [[c]]
    | g :: gs => (c :: g) :: gs

/-- All ways to split the input at a `]`: pairs (before, after), earliest
bracket first.  Used to model backtracking of the non-greedy `(.+?)\]`. -/
def bracketSplits : List Char → List (List Char × List Char)
  | [] => []
  | c :: r =>
    (if c = ']' then [(([] : List Char), r)] else []) ++
      (bracketSplits r).map (fun p => (c :: p.1, p.2))

/-- Matches `^var\s+([A-Za-z_]\w*)\s*\((.+)\)\s*$` on a stripped line,
returning the variable name and the (greedy) expression between the first
opening parenthesis and the final closing one. -/
def matchVar (cs : List Char) : Option (String × String) :=
  match dropPre ['v', 'a', 'r'] cs with
  | Option.none => Option.none
  | some r1 =>
    match dropWS1 r1 with
    | Option.none => Option.none
    | some r2 =>
      match takeIdent r2 with
      | Option.none => Option.none
      | some (name, r3) =>
        match dropWS r3 with
        | '(' :: r4 =>
          match r4.reverse with
          | ')' :: revContent =>
            if revContent.isEmpty then Option.none
            else some (name, String.mk revContent.reverse)
          | _ => Option.none
        | _ => Option.none

/-- Tail of the memory-write pattern: `\s*=\s*(.+)$` on a stripped line. -/
def memRhs (cs : List Char) : Option String :=
  match dropWS cs with
  | '=' :: r =>
    match dropWS r with
    | [] => Option.none
    | r2 => some (String.mk r2)
  | _ => Option.none

/-- First candidate split (non-greedy, with group length at least one,
regex-backtracking order) whose remainder matches the `= rhs` tail. -/
def findMemSplit : List (List Char × List Char) → Option (String × String)
  | [] => Option.none
  | (idx, after) :: rest =>
    if idx.isEmpty then findMemSplit rest
    else
      match memRhs after with
      | some rhs => some (String.mk idx, rhs)
      | Option.none => findMemSplit rest

/-- Matches `^mem\[(.+?)\]\s*=\s*(.+)$`, returning the index expression and
the right-hand side. -/
def matchMem (cs : List Char) : Option (String × String) :=
  match dropPre ['m', 'e', 'm', '['] cs with
  | Option.none => Option.none
  | some r => findMemSplit (bracketSplits r)

/-- Matches `^out\s+(.+)$`, returning the expression text. -/
def matchOut (cs : List Char) : Option String :=
  match dropPre ['o', 'u', 't'] cs with
  | Option.none => Option.none
  | some r =>
    match dropWS1 r with
    | Option.none => Option.none
    | some [] => Option.none
    | some r2 => some (String.mk r2)

/-- Recognizes `^sleep\((.+)\)\s*$` (the statement itself — a real-time delay —
is not modelled; recognizing it keeps the dispatch order faithful). -/
def matchSleep (cs : List Char) : Bool :=
  match dropPre ['s', 'l', 'e', 'e', 'p', '('] cs with
  | Option.none => false
  | some r =>
    match r.reverse with
    | ')' :: content => !content.isEmpty
    | _ => false

/-- Recognizes the spawn statement `^spawn\s*\((.+)\)\s*\((.+)\)\s*$` (its
effect uses the host random generator and is not modelled; the recognizer is a
slight over-approximation — `spawn` + parentheses — which only ever routes to
the not-modelled result). -/
def matchSpawn (cs : List Char) : Bool :=
  match dropPre ['s', 'p', 'a', 'w', 'n'] cs with
  | Option.none => false
  | some r =>
    match dropWS r with
    | '(' :: r2 =>
      (match r2.reverse with
       | ')' :: _ => true
       | _ => false)
    | _ => false

/-- Matches `^if\s*\(.+\):\s*$` on a stripped line. -/
def isIfHeader (cs : List Char) : Bool :=
  match dropPre ['i', 'f'] cs with
  | Option.none => false
  | some r =>
    match dropWS r with
    | '(' :: r2 =>
      (match r2.reverse with
       | ':' :: ')' :: revMid => !revMid.isEmpty
       | _ => false)
    | _ => false

/-- Matches `^elif\s*\(.+\):\s*$` on a stripped line. -/
def isElifHeader (cs : List Char) : Bool :=
  match dropPre ['e', 'l', 'i', 'f'] cs with
  | Option.none => false
  | some r =>
    match dropWS r with
    | '(' :: r2 =>
      (match r2.reverse with
       | ':' :: ')' :: revMid => !revMid.isEmpty
       | _ => false)
    | _ => false

/-- Drop everything up to and including the first `(` (for the header
condition slice `hdr[hdr.find("(")+1 : ...]`). -/
def dropThroughLParen : List Char → List Char
  | [] => []
  | '(' :: r => r
  | _ :: r => dropThroughLParen r

/-- Drop everything up to and including the first `)` (applied to a reversed
list this cuts at the last `)` of the original). -/
def dropThroughRParen : List Char → List Char
  | [] => []
  | ')' :: r => r
  | _ :: r => dropThroughRParen r

/-- Condition text of an `if`/`elif` header: the slice between the first `(`
and the last `)` (Python `hdr[hdr.find("(")+1 : hdr.rfind(")")]`; on headers
that matched the header regex both parentheses exist). -/
def condOfHeader (hdr : String) : String :=
  String.mk (dropThroughRParen (dropThroughLParen hdr.data).reverse).reverse

/-- Matches `^loop\s*\((.+)\):\s*$`, returning the count expression. -/
def matchLoopCount (cs : List Char) : Option String :=
  match dropPre ['l', 'o', 'o', 'p'] cs with
  | Option.none => Option.none
  | some r =>
    match dropWS r with
    | '(' :: r2 =>
      (match r2.reverse with
       | ':' :: ')' :: revMid =>
         if revMid.isEmpty then Option.none else some (String.mk revMid.reverse)
       | _ => Option.none)
    | _ => Option.none

/-- Matches `^loop\s+([A-Za-z_]\w*):\s*$`, returning the sequence variable. -/
def matchLoopEach (cs : List Char) : Option String :=
  match dropPre ['l', 'o', 'o', 'p'] cs with
  | Option.none => Option.none
  | some r =>
    match dropWS1 r with
    | Option.none => Option.none
    | some r2 =>
      match takeIdent r2 with
      | Option.none => Option.none
      | some (name, r3) => if r3 = [':'] then some name else Option.none

/-- The loose loop-opener pattern `^loop\s*(\(|[A-Za-z_])` that the block
scanners use for depth tracking (it accepts lines that the dispatcher itself
would reject, e.g. `loop x` without a colon — faithful to the source). -/
def isLoopLoose (cs : List Char) : Bool :=
  match dropPre ['l', 'o', 'o', 'p'] cs with
  | Option.none => false
  | some r =>
    match dropWS r with
    | c :: _ => c = '(' || isIdentStart c
    | [] => false

/-- Matches `^fn\s+([A-Za-z_]\w*)\s*\(([^)]*)\)\s*=>\s*(.+)$`: an
expression-function definition, returning name, raw argument list and
expression text. -/
def matchFnExpr (cs : List Char) : Option (String × String × String) :=
  match dropPre ['f', 'n'] cs with
  | Option.none => Option.none
  | some r =>
    match dropWS1 r with
    | Option.none => Option.none
    | some r2 =>
      match takeIdent r2 with
      | Option.none => Option.none
      | some (name, r3) =>
        match dropWS r3 with
        | '(' :: r4 =>
          (match spanP (fun c => !(c = ')' : Bool)) r4 with
           | (arglist, ')' :: r5) =>
             (match dropWS r5 with
              | '=' :: '>' :: r6 =>
                (match dropWS r6 with
                 | [] => Option.none
                 | body => some (name, String.mk arglist, String.mk body))
              | _ => Option.none)
           | _ => Option.none)
        | _ => Option.none

/-- Matches `^fn\s+([A-Za-z_]\w*)\s*\(([^)]*)\):\s*$`: a block-function
header, returning name and raw argument list. -/
def matchFnBlock (cs : List Char) : Option (String × String) :=
  match dropPre ['f', 'n'] cs with
  | Option.none => Option.none
  | some r =>
    match dropWS1 r with
    | Option.none => Option.none
    | some r2 =>
      match takeIdent r2 with
      | Option.none => Option.none
      | some (name, r3) =>
        match dropWS r3 with
        | '(' :: r4 =>
          (match spanP (fun c => !(c = ')' : Bool)) r4 with
           | (arglist, ')' :: r5) =>
             if r5 = [':'] then some (name, String.mk arglist) else Option.none
           | _ => Option.none)
        | _ => Option.none

/-- The block-function header as a pure recognizer (the form the block
scanners use for depth tracking). -/
def isFnBlockHeader (cs : List Char) : Bool :=
  (matchFnBlock cs).isSome

/-- Any of the three opener patterns the source's depth scanners count. -/
def isOpener (cs : List Char) : Bool :=
  isFnBlockHeader cs || isIfHeader cs || isLoopLoose cs

/-- Matches `^return\s+.+$` (the dispatcher's stray-return check). -/
def isReturnLine (cs : List Char) : Bool :=
  match dropPre ['r', 'e', 't', 'u', 'r', 'n'] cs with
  | Option.none => false
  | some r =>
    match dropWS1 r with
    | Option.none => false
    | some r2 => !r2.isEmpty

/-- Matches `^([A-Za-z_]\w*)\(([^)]*)\)\s*$`: a bare call statement,
returning the callee name and the raw argument text. -/
def matchBareCall (cs : List Char) : Option (String × String) :=
  match takeIdent cs with
  | Option.none => Option.none
  | some (name, '(' :: r) =>
    (match spanP (fun c => !(c = ')' : Bool)) r with
     | (args, [')']) => some (name, String.mk args)
     | _ => Option.none)
  | some _ => Option.none

/-- Parameter-name list of a `fn` definition: split the raw argument text on
commas, strip each piece, drop the empty ones (the source's
`[a.strip() for a in arglist.split(",") if a.strip()]`). -/
def fnParams (s : String) : List String :=
  (splitComma s.data).filterMap
    (fun g =>
      let g' := stripChars g
      if g'.isEmpty then Option.none else some (String.mk g'))

/-- Argument-expression list of a bare call: if the raw text strips to empty
the list is empty, otherwise split on commas and strip each piece, keeping
empties (the source keeps them and lets `_eval` fall back on them). -/
def callArgs (s : String) : List String :=
  if (stripChars s.data).isEmpty then []
  else (splitComma s.data).map (fun g => String.mk (stripChars g))

/-- Decimal digit character (defined by cases so its properties are
decidable without facts about `Char.ofNat`). -/
def digitChar : Nat → Char
  | 0 => '0'
  | 1 => '1'
  | 2 => '2'
  | 3 => '3'
  | 4 => '4'
  | 5 => '5'
  | 6 => '6'
  | 7 => '7'
  | 8 => '8'
  | _ => '9'

/-- Decimal digits of a natural number, most significant first (fueled helper;
the wrapper passes enough fuel for any input). -/
def natToCharsAux : Nat → Nat → List Char
  | 0, _ => []
  | f + 1, n =>
    if n < 10 then [digitChar n]
    else natToCharsAux f (n / 10) ++ [digitChar (n % 10)]

/-- Decimal digits of a natural number. -/
def natToChars (n : Nat) : List Char := natToCharsAux (n + 1) n

/-- Decimal text of an integer (Python `repr`/`str` of an int). -/
def intToChars : Int → List Char
  | .ofNat n => natToChars n
  | .negSucc n => '-' :: natToChars (n + 1)

/-- Escape one character for a single-quoted string literal. -/
def escChar (c : Char) : List Char :=
  if c = '\\' || c = '\'' then ['\\', c] else [c]

/-- Escape a character sequence for a single-quoted string literal. -/
def escChars : List Char → List Char
  | [] => []
  | c :: r => escChar c ++ escChars r

mutual
/-- Model of Python `repr` on the value domain, as used by the source's
memory-read substitution (`repr(self.mem.get(idx, 0))`): the printed text,
re-parsed by the expression evaluator, yields the original value.  Strings are
always single-quoted with `\\` and `\'` escaped (Python switches quote styles
and escapes control characters; on the value domain both spellings re-evaluate
to the same value). -/
def reprChars : Value → List Char
  | .int k => intToChars k
  | .bool b => if b then ['T', 'r', 'u', 'e'] else ['F', 'a', 'l', 's', 'e']
  | .none => ['N', 'o', 'n', 'e']
  | .str s => '\'' :: (escChars s.data ++ ['\''])
  | .list l => '[' :: (reprCharsL l ++ [']'])

/-- Comma-space separated `repr` of list elements. -/
def reprCharsL : List Value → List Char
  | [] => []
  | [v] => reprChars v
  | v :: w :: rest => reprChars v ++ ',' :: ' ' :: reprCharsL (w :: rest)
end

/-- Python truthiness (`bool(v)`) on the value domain. -/
def truthy : Value → Bool
  | .int n => !(n = 0 : Bool)
  | .bool b => b
  | .str s => !s.data.isEmpty
  | .list l => !l.isEmpty
  | .none => false

/-- Numeric view: Python treats `bool` as an integer in arithmetic. -/
def asNum : Value → Option Int
  | .int n => some n
  | .bool b => some (if b then 1 else 0)
  | _ => Option.none

/-- Numeric value of a digit run. -/
def digitsVal (ds : List Char) : Nat :=
  ds.foldl (fun a c => a * 10 + (c.toNat - 48)) 0

/-- Python `int(string)`: strip whitespace, optional sign, a non-empty digit
run.  (Python additionally allows underscore digit separators, which the model
rejects; no program in question contains them.) -/
def parseIntChars (cs : List Char) : Option Int :=
  match stripChars cs with
  | '-' :: ds =>
    if !ds.isEmpty && ds.all Char.isDigit then some (-(digitsVal ds : Int)) else Option.none
  | '+' :: ds =>
    if !ds.isEmpty && ds.all Char.isDigit then some (digitsVal ds) else Option.none
  | ds =>
    if !ds.isEmpty && ds.all Char.isDigit then some (digitsVal ds) else Option.none

/-- Python `int(v)` on the value domain: ints pass through, bools become 0/1,
numeric strings are parsed, everything else raises (`Option.none` — the caller
turns it into the host exception). -/
def toIntPy : Value → Option Int
  | .int n => some n
  | .bool b => some (if b then 1 else 0)
  | .str s => parseIntChars s.data
  | _ => Option.none

mutual
/-- Python `==` on the value domain (numeric cross-type equality between ints
and bools, structural equality on strings and lists, no exceptions). -/
def valEq : Value → Value → Bool
  | .int a, .int b => a == b
  | .int a, .bool b => a == (if b then (1 : Int) else 0)
  | .bool a, .int b => (if a then (1 : Int) else 0) == b
  | .bool a, .bool b => a == b
  | .str a, .str b => a == b
  | .none, .none => true
  | .list a, .list b => valEqL a b
  | _, _ => false

/-- Pairwise Python `==` on lists. -/
def valEqL : List Value → List Value → Bool
  | [], [] => true
  | x :: xs, y :: ys => valEq x y && valEqL xs ys
  | _, _ => false
end

/-- Python `str(v)`: identity on strings, `repr` rendering otherwise (on this
value domain `str` and `repr` agree for ints, bools, None and lists). -/
def pyStr (v : Value) : String :=
  match v with
  | .str s => s
  | _ => String.mk (reprChars v)

/-- Tokens of the modelled expression grammar. -/
inductive Tok where
  | int (n : Nat)
  | str (s : String)
  | ident (s : String)
  | lparen | rparen | lbrack | rbrack | comma
  | plus | minus | star
  | ltT | leT | gtT | geT | eqq | neq
  | kand | kor | knot | ktrue | kfalse | knone
deriving DecidableEq, Repr

/-- Tokenizer/parser outcome: success, a Python `SyntaxError` (which the
guarded evaluator turns into the string fallback), or syntax the model does
not cover. -/
inductive TR (α : Type) where
  | ok (a : α)
  | fail
  | nm
deriving Repr

/-- Prepend a token to a tokenizer result. -/
def trCons (t : Tok) : TR (List Tok) → TR (List Tok)
  | .ok ts => .ok (t :: ts)
  | .fail => .fail
  | .nm => .nm

/-- Scan a quoted string literal body up to the closing quote, handling the
escapes `\\`, `\'`, `\"`, `\n`, `\t` (other escapes are not modelled); a
missing closing quote is a syntax error. -/
def strLit (q : Char) : List Char → List Char → TR (String × List Char)
  | [], _ => .fail
  | c :: r, acc =>
    if c = q then .ok (String.mk acc.reverse, r)
    else if c = '\\' then
      match r with
      | [] => .fail
      | e :: r2 =>
        if e = '\\' || e = '\'' || e = '"' then strLit q r2 (e :: acc)
        else if e = 'n' then strLit q r2 ('\n' :: acc)
        else if e = 't' then strLit q r2 ('\t' :: acc)
        else .nm
    else strLit q r (c :: acc)

/-- Python keywords that begin expression syntax the model does not cover
(conditional expressions, comprehensions, lambdas, membership tests, ...). -/
def pyKw (s : String) : Bool :=
  ["if", "elif", "else", "lambda", "in", "is", "for", "while", "import",
   "del", "yield", "await", "async", "with", "try", "except", "finally",
   "raise", "class", "def", "pass", "break", "continue", "global",
   "nonlocal", "assert", "from", "as"].contains s

/-- True when a digit run is followed by a character that would make it a
float, scientific, hex or otherwise un-modelled numeric literal. -/
def numTailBad : List Char → Bool
  | [] => false
  | d :: _ => isIdentChar d || d = '.'

/-- The tokenizer for the modelled expression grammar (decimal ints, quoted
strings, identifiers and keywords, parentheses, brackets, commas, `+ - *`,
comparisons, `and/or/not`, `True/False/None`; a `#` starts a comment).
Characters introducing valid Python syntax outside the model (`/ % . & | ^ ~
@ : { }`, float literals, chained escapes, non-ASCII) give `.nm`; characters
Python itself rejects give `.fail`.  Fuel is structural; callers pass
`length + 1`, enough for every input since each step consumes a character. -/
def tokenize : Nat → List Char → TR (List Tok)
  | 0, _ => .nm
  | _ + 1, [] => .ok []
  | f + 1, c :: r =>
    if isWS c then tokenize f r
    else if c = '(' then trCons .lparen (tokenize f r)
    else if c = ')' then trCons .rparen (tokenize f r)
    else if c = '[' then trCons .lbrack (tokenize f r)
    else if c = ']' then trCons .rbrack (tokenize f r)
    else if c = ',' then trCons .comma (tokenize f r)
    else if c = '+' then trCons .plus (tokenize f r)
    else if c = '-' then trCons .minus (tokenize f r)
    else if c = '*' then
      (match r with
       | '*' :: _ => .nm
       | _ => trCons .star (tokenize f r))
    else if c = '=' then
      (match r with
       | '=' :: r2 => trCons .eqq (tokenize f r2)
       | _ => .fail)
    else if c = '!' then
      (match r with
       | '=' :: r2 => trCons .neq (tokenize f r2)
       | _ => .fail)
    else if c = '<' then
      (match r with
       | '=' :: r2 => trCons .leT (tokenize f r2)
       | _ => trCons .ltT (tokenize f r))
    else if c = '>' then
      (match r with
       | '=' :: r2 => trCons .geT (tokenize f r2)
       | _ => trCons .gtT (tokenize f r))
    else if c = '"' then
      (match strLit '"' r [] with
       | .ok (s, rest) => trCons (.str s) (tokenize f rest)
       | .fail => .fail
       | .nm => .nm)
    else if c = '\'' then
      (match strLit '\'' r [] with
       | .ok (s, rest) => trCons (.str s) (tokenize f rest)
       | .fail => .fail
       | .nm => .nm)
    else if c = '#' then .ok []
    else if c.isDigit then
      (match spanP Char.isDigit (c :: r) with
       | (ds, rest) =>
         if numTailBad rest then .nm
         else trCons (.int (digitsVal ds)) (tokenize f rest))
    else if isIdentStart c then
      (match takeIdent (c :: r) with
       | some (s, rest) =>
         if s = "and" then trCons .kand (tokenize f rest)
         else if s = "or" then trCons .kor (tokenize f rest)
         else if s = "not" then trCons .knot (tokenize f rest)
         else if s = "True" then trCons .ktrue (tokenize f rest)
         else if s = "False" then trCons .kfalse (tokenize f rest)
         else if s = "None" then trCons .knone (tokenize f rest)
         else if pyKw s then .nm
         else trCons (.ident s) (tokenize f rest)
       | Option.none => .nm)
    else if c = ';' || c = '$' || c = '?' then .fail
    else .nm

/-- Tokenize a whole character sequence with adequate fuel. -/
def tokenizeStr (cs : List Char) : TR (List Tok) :=
  tokenize (cs.length + 1) cs

/-- Unary operators of the expression grammar. -/
inductive UOp where
  | neg | pos | bnot
deriving DecidableEq, Repr

/-- Binary operators of the expression grammar. -/
inductive BOp where
  | add | sub | mul | blt | ble | bgt | bge | beq | bne | band | bor
deriving DecidableEq, Repr

mutual
/-- Abstract syntax of the modelled expression grammar. -/
inductive Expr where
  | lit (v : Value)
  | evar (name : String)
  | call (f : String) (args : ExprList)
  | un (op : UOp) (e : Expr)
  | bin (op : BOp) (a b : Expr)
  | elist (es : ExprList)

/-- Argument/element lists (a separate inductive so all recursion over the
syntax is structural). -/
inductive ExprList where
  | nil
  | cons (e : Expr) (es : ExprList)
end

/-- Append an expression at the end of an argument list. -/
def ExprList.snoc : ExprList → Expr → ExprList
  | .nil, e => .cons e .nil
  | .cons x xs, e => .cons x (xs.snoc e)

/-- Parser outcome: parsed prefix plus remaining tokens, syntax error, or
syntax outside the model. -/
inductive PRes where
  | ok (e : Expr) (rest : List Tok)
  | fail
  | nm

/-- Comparison operator at the head of the token stream. -/
def cmpOp : List Tok → Option (BOp × List Tok)
  | .ltT :: r => some (.blt, r)
  | .leT :: r => some (.ble, r)
  | .gtT :: r => some (.bgt, r)
  | .geT :: r => some (.bge, r)
  | .eqq :: r => some (.beq, r)
  | .neq :: r => some (.bne, r)
  | _ => Option.none

/-- After an atom: a `[` would be a subscript/slice, which the model does not
cover; anything else ends the atom. -/
def postAtom (e : Expr) (ts : List Tok) : PRes :=
  match ts with
  | .lbrack :: _ => .nm
  | _ => .ok e ts

mutual
/-- Precedence level `or` (lowest). Fuel decreases on every call; the entry
point passes fuel linear in the token count, which suffices for any input. -/
def pOr : Nat → List Tok → PRes
  | 0, _ => .fail
  | f + 1, ts =>
    match pAnd f ts with
    | .ok e r => pOrR f e r
    | x => x

/-- Left-associated `or` chain continuation. -/
def pOrR : Nat → Expr → List Tok → PRes
  | 0, _, _ => .fail
  | f + 1, e, .kor :: r =>
    (match pAnd f r with
     | .ok e2 r2 => pOrR f (.bin .bor e e2) r2
     | x => x)
  | _ + 1, e, ts => .ok e ts

/-- Precedence level `and`. -/
def pAnd : Nat → List Tok → PRes
  | 0, _ => .fail
  | f + 1, ts =>
    match pNot f ts with
    | .ok e r => pAndR f e r
    | x => x

/-- Left-associated `and` chain continuation. -/
def pAndR : Nat → Expr → List Tok → PRes
  | 0, _, _ => .fail
  | f + 1, e, .kand :: r =>
    (match pNot f r with
     | .ok e2 r2 => pAndR f (.bin .band e e2) r2
     | x => x)
  | _ + 1, e, ts => .ok e ts

/-- Precedence level `not`. -/
def pNot : Nat → List Tok → PRes
  | 0, _ => .fail
  | f + 1, .knot :: r =>
    (match pNot f r with
     | .ok e r2 => .ok (.un .bnot e) r2
     | x => x)
  | f + 1, ts => pCmp f ts

/-- Comparison level: at most one comparison (a chained comparison is valid
Python with conjunction semantics, which the model does not cover). -/
def pCmp : Nat → List Tok → PRes
  | 0, _ => .fail
  | f + 1, ts =>
    match pAdd f ts with
    | .ok a r =>
      (match cmpOp r with
       | some (op, r2) =>
         (match pAdd f r2 with
          | .ok b r3 =>
            (match cmpOp r3 with
             | some _ => .nm
             | Option.none => .ok (.bin op a b) r3)
          | x => x)
       | Option.none => .ok a r)
    | x => x

/-- Additive level. -/
def pAdd : Nat → List Tok → PRes
  | 0, _ => .fail
  | f + 1, ts =>
    match pMul f ts with
    | .ok e r => pAddR f e r
    | x => x

/-- Left-associated `+`/`-` chain continuation. -/
def pAddR : Nat → Expr → List Tok → PRes
  | 0, _, _ => .fail
  | f + 1, e, .plus :: r =>
    (match pMul f r with
     | .ok e2 r2 => pAddR f (.bin .add e e2) r2
     | x => x)
  | f + 1, e, .minus :: r =>
    (match pMul f r with
     | .ok e2 r2 => pAddR f (.bin .sub e e2) r2
     | x => x)
  | _ + 1, e, ts => .ok e ts

/-- Multiplicative level (`*` only; `/` and `%` are un-modelled and already
rejected by the tokenizer). -/
def pMul : Nat → List Tok → PRes
  | 0, _ => .fail
  | f + 1, ts =>
    match pUn f ts with
    | .ok e r => pMulR f e r
    | x => x

/-- Left-associated `*` chain continuation. -/
def pMulR : Nat → Expr → List Tok → PRes
  | 0, _, _ => .fail
  | f + 1, e, .star :: r =>
    (match pUn f r with
     | .ok e2 r2 => pMulR f (.bin .mul e e2) r2
     | x => x)
  | _ + 1, e, ts => .ok e ts

/-- Unary sign level. -/
def pUn : Nat → List Tok → PRes
  | 0, _ => .fail
  | f + 1, .minus :: r =>
    (match pUn f r with
     | .ok e r2 => .ok (.un .neg e) r2
     | x => x)
  | f + 1, .plus :: r =>
    (match pUn f r with
     | .ok e r2 => .ok (.un .pos e) r2
     | x => x)
  | f + 1, ts => pAtom f ts

/-- Atoms: literals, identifiers, calls, parenthesized expressions, list
displays.  A tuple display (`(`e`,` ...) is valid Python the model does not
cover. -/
def pAtom : Nat → List Tok → PRes
  | 0, _ => .fail
  | f + 1, ts =>
    match ts with
    | .int n :: r => postAtom (.lit (.int n)) r
    | .str s :: r => postAtom (.lit (.str s)) r
    | .ktrue :: r => postAtom (.lit (.bool true)) r
    | .kfalse :: r => postAtom (.lit (.bool false)) r
    | .knone :: r => postAtom (.lit .none) r
    | .ident s :: .lparen :: r => pArgs f s .nil r
    | .ident s :: r => postAtom (.evar s) r
    | .lparen :: r =>
      (match pOr f r with
       | .ok e r2 =>
         (match r2 with
          | .rparen :: r3 => postAtom e r3
          | .comma :: _ => .nm
          | _ => .fail)
       | x => x)
    | .lbrack :: .rbrack :: r => postAtom (.elist .nil) r
    | .lbrack :: r => pArr f .nil r
    | _ => .fail

/-- Call argument list after `name(`; a trailing comma is allowed as in
Python. -/
def pArgs : Nat → String → ExprList → List Tok → PRes
  | 0, _, _, _ => .fail
  | _ + 1, name, acc, .rparen :: r => postAtom (.call name acc) r
  | f + 1, name, acc, ts =>
    match pOr f ts with
    | .ok e r =>
      (match r with
       | .rparen :: r2 => postAtom (.call name (acc.snoc e)) r2
       | .comma :: r2 => pArgs f name (acc.snoc e) r2
       | _ => .fail)
    | x => x

/-- List display elements after `[`; a trailing comma is allowed. -/
def pArr : Nat → ExprList → List Tok → PRes
  | 0, _, _ => .fail
  | f + 1, acc, ts =>
    match pOr f ts with
    | .ok e r =>
      (match r with
       | .rbrack :: r2 => postAtom (.elist (acc.snoc e)) r2
       | .comma :: .rbrack :: r2 => postAtom (.elist (acc.snoc e)) r2
       | .comma :: r2 => pArr f (acc.snoc e) r2
       | _ => .fail)
    | x => x
end

/-- Whole-expression parse: the token stream must be consumed entirely; a
top-level residual comma would be a tuple display (valid Python, un-modelled). -/
def parseToks (ts : List Tok) : TR Expr :=
  match pOr (6 * ts.length + 20) ts with
  | .ok e [] => .ok e
  | .ok _ (.comma :: _) => .nm
  | .ok _ _ => .fail
  | .fail => .fail
  | .nm => .nm

/-- Names bound in the source's restricted eval environment before variables
are merged in (`str/int/float/bool/num` plus the two random intrinsics). -/
def isIntrinsicName (s : String) : Bool :=
  ["str", "int", "float", "bool", "num", "RAN_int", "RAN_pick"].contains s

/-- Application of a modelled intrinsic.  `float`, `num` and the random
intrinsics are un-modelled (floats, randomness); a wrong arity is a
`TypeError`, caught by the surrounding guard. -/
def applyIntrinsic (name : String) (vs : List Value) : TR Value :=
  if name = "str" then
    match vs with
    | [] => .ok (.str "")
    | [v] => .ok (.str (pyStr v))
    | _ => .fail
  else if name = "int" then
    match vs with
    | [] => .ok (.int 0)
    | [v] =>
      (match toIntPy v with
       | some k => .ok (.int k)
       | Option.none => .fail)
    | _ => .nm
  else if name = "bool" then
    match vs with
    | [] => .ok (.bool false)
    | [v] => .ok (.bool (truthy v))
    | _ => .fail
  else .nm

/-- Python sequence repetition (`s * n`, `n` clipped at zero). -/
def seqRepeat {α : Type} (n : Int) (s : List α) : List α :=
  match n with
  | .ofNat k => (List.replicate k s).flatten
  | .negSucc _ => []

/-- Python binary operator semantics on the value domain (bools count as
ints in arithmetic; `+` concatenates two strings or two lists; `*` repeats a
sequence by an int; comparisons require both numbers or both strings —
mismatches are a `TypeError`, i.e. `.fail`, and list-list ordering is valid
Python the model does not cover).  `and`/`or` are short-circuited by the
evaluator and never reach this function. -/
def binEval : BOp → Value → Value → TR Value
  | .add, a, b =>
    (match asNum a, asNum b with
     | some x, some y => .ok (.int (x + y))
     | _, _ =>
       match a, b with
       | .str s, .str t => .ok (.str (s ++ t))
       | .list xs, .list ys => .ok (.list (xs ++ ys))
       | _, _ => .fail)
  | .sub, a, b =>
    (match asNum a, asNum b with
     | some x, some y => .ok (.int (x - y))
     | _, _ => .fail)
  | .mul, a, b =>
    (match asNum a, asNum b with
     | some x, some y => .ok (.int (x * y))
     | _, _ =>
       match a, b with
       | .str s, _ =>
         (match asNum b with
          | some n => .ok (.str (String.mk (seqRepeat n s.data)))
          | _ => .fail)
       | _, .str t =>
         (match asNum a with
          | some n => .ok (.str (String.mk (seqRepeat n t.data)))
          | _ => .fail)
       | .list xs, _ =>
         (match asNum b with
          | some n => .ok (.list (seqRepeat n xs))
          | _ => .fail)
       | _, .list ys =>
         (match asNum a with
          | some n => .ok (.list (seqRepeat n ys))
          | _ => .fail)
       | _, _ => .fail)
  | .blt, a, b =>
    (match asNum a, asNum b with
     | some x, some y => .ok (.bool (x < y))
     | _, _ =>
       match a, b with
       | .str s, .str t => .ok (.bool (s < t))
       | .list _, .list _ => .nm
       | _, _ => .fail)
  | .ble, a, b =>
    (match asNum a, asNum b with
     | some x, some y => .ok (.bool (x ≤ y))
     | _, _ =>
       match a, b with
       | .str s, .str t => .ok (.bool (s < t || s = t))
       | .list _, .list _ => .nm
       | _, _ => .fail)
  | .bgt, a, b =>
    (match asNum a, asNum b with
     | some x, some y => .ok (.bool (y < x))
     | _, _ =>
       match a, b with
       | .str s, .str t => .ok (.bool (t < s))
       | .list _, .list _ => .nm
       | _, _ => .fail)
  | .bge, a, b =>
    (match asNum a, asNum b with
     | some x, some y => .ok (.bool (y ≤ x))
     | _, _ =>
       match a, b with
       | .str s, .str t => .ok (.bool (t < s || s = t))
       | .list _, .list _ => .nm
       | _, _ => .fail)
  | .beq, a, b => .ok (.bool (valEq a b))
  | .bne, a, b => .ok (.bool (!valEq a b))
  | .band, a, b => .ok (if truthy a then b else a)
  | .bor, a, b => .ok (if truthy a then a else b)

mutual
/-- Evaluation of a parsed expression against a variable environment, as
Python `eval` would with `{"__builtins__": {}}` globals and an environment of
the intrinsics updated with the variables (so variables shadow intrinsics).
`intr` is false for the expression-function path, whose environment contains
no intrinsics.  User-defined functions are never in the environment: a call
to one is a `NameError` (`.fail`).  `and`/`or` short-circuit and yield the
operand itself. -/
def evalA (intr : Bool) (vars : List (String × Value)) : Expr → TR Value
  | .lit v => .ok v
  | .evar s =>
    (match alookup vars s with
     | some v => .ok v
     | Option.none => if intr && isIntrinsicName s then .nm else .fail)
  | .call fname args =>
    (match alookup vars fname with
     | some _ => .fail
     | Option.none =>
       if intr && isIntrinsicName fname then
         match evalAL intr vars args with
         | .ok vs => applyIntrinsic fname vs
         | .fail => .fail
         | .nm => .nm
       else .fail)
  | .un op e =>
    (match evalA intr vars e with
     | .ok v =>
       (match op with
        | .neg => (match asNum v with | some n => .ok (.int (-n)) | _ => .fail)
        | .pos => (match asNum v with | some n => .ok (.int n) | _ => .fail)
        | .bnot => .ok (.bool (!truthy v)))
     | x => x)
  | .bin .band a b =>
    (match evalA intr vars a with
     | .ok v => if truthy v then evalA intr vars b else .ok v
     | x => x)
  | .bin .bor a b =>
    (match evalA intr vars a with
     | .ok v => if truthy v then .ok v else evalA intr vars b
     | x => x)
  | .bin op a b =>
    (match evalA intr vars a with
     | .ok va =>
       (match evalA intr vars b with
        | .ok vb => binEval op va vb
        | x => x)
     | x => x)
  | .elist es =>
    (match evalAL intr vars es with
     | .ok vs => .ok (.list vs)
     | .fail => .fail
     | .nm => .nm)

/-- Left-to-right evaluation of an expression list. -/
def evalAL (intr : Bool) (vars : List (String × Value)) : ExprList → TR (List Value)
  | .nil => .ok []
  | .cons e es =>
    match evalA intr vars e with
    | .ok v =>
      (match evalAL intr vars es with
       | .ok vs => .ok (v :: vs)
       | .fail => .fail
       | .nm => .nm)
    | .fail => .fail
    | .nm => .nm
end

/-- The tokenize–parse–evaluate pipeline of Python `eval` on the (already
memory-substituted) expression text. -/
def evalPipeline (intr : Bool) (vars : List (String × Value)) (cs : List Char) : TR Value :=
  match tokenizeStr cs with
  | .ok ts =>
    (match parseToks ts with
     | .ok e => evalA intr vars e
     | .fail => .fail
     | .nm => .nm)
  | .fail => .fail
  | .nm => .nm

/-- Memory read with default: `self.mem.get(idx, 0)`. -/
def memGet (mem : List (Int × Value)) (k : Int) : Value :=
  (alookup mem k).getD (.int 0)

/-- Split at the first `]` (the continuation of the non-greedy `(.+?)\]`
after its mandatory first character). -/
def splitRBrack : List Char → Option (List Char × List Char)
  | [] => Option.none
  | ']' :: r => some (([] : List Char), r)
  | c :: r => (splitRBrack r).map (fun p => (c :: p.1, p.2))

/-- The text matched by the non-greedy `(.+?)\]` right after a `mem[`: at
least one character, then everything up to the first `]`; `Option.none` when
no closing bracket exists (the regex does not match at this position). -/
def memMatch (cs : List Char) : Option (List Char × List Char) :=
  match cs with
  | [] => Option.none
  | c :: r => (splitRBrack r).map (fun p => (c :: p.1, p.2))

/-- Model of the source's `re.sub(r"mem\[(.+?)\]", mem_read, expr)`: scan for
`mem[`, evaluate the inner text with the given evaluator (the full `_eval`,
including its fallback), convert to an index with Python `int` (whose
`ValueError` propagates — this conversion sits outside `_eval`'s try/except),
and splice in the `repr` of the stored value; matching resumes after the
spliced text, never inside it.  The scan fuel is structural; callers pass
`length + 1`, enough since every step consumes at least one character. -/
def substMemWith (ev : String → Res Value) (mem : List (Int × Value)) :
    Nat → List Char → Res (List Char)
  | 0, _ => .fuelOut
  | _ + 1, [] => .ok []
  | sf + 1, c :: rest =>
    if c = 'm' then
      match rest with
      | 'e' :: 'm' :: '[' :: r2 =>
        (match memMatch r2 with
         | Option.none =>
           bindR (substMemWith ev mem sf rest) (fun cs2 => .ok ('m' :: cs2))
         | some (inner, post) =>
           match ev (String.mk inner) with
           | .ok v =>
             (match toIntPy v with
              | some k =>
                bindR (substMemWith ev mem sf post)
                  (fun cs2 => .ok (reprChars (memGet mem k) ++ cs2))
              | Option.none => .err .hostExc)
           | .err e => .err e
           | .fuelOut => .fuelOut
           | .nm => .nm)
      | _ => bindR (substMemWith ev mem sf rest) (fun cs2 => .ok (c :: cs2))
    else bindR (substMemWith ev mem sf rest) (fun cs2 => .ok (c :: cs2))

/-- Memory substitution with adequate scan fuel. -/
def substMem (ev : String → Res Value) (mem : List (Int × Value)) (cs : List Char) :
    Res (List Char) :=
  substMemWith ev mem (cs.length + 1) cs

/-- The fallback value of `_eval`: the original expression text with leading
and trailing double-quote characters stripped (Python `expr.strip('"')`),
treated as a string. -/
def fallbackVal (expr : String) : Value :=
  .str (String.mk (((expr.data.dropWhile (fun c => c == '"')).reverse.dropWhile
    (fun c => c == '"')).reverse))

/-- Model of `_eval`: substitute memory reads (errors there propagate), then
evaluate the resulting text under the guard — any parse or evaluation failure
degrades to the string fallback.  The fuel bounds the recursion through
nested memory-index evaluation. -/
def evalStr : Nat → String → Interp → Res Value
  | 0, _, _ => .fuelOut
  | n + 1, expr, σ =>
    match substMem (fun s => evalStr n s σ) σ.mem expr.data with
    | .ok cs =>
      (match evalPipeline true σ.vars cs with
       | .ok v => .ok v
       | .fail => .ok (fallbackVal expr)
       | .nm => .nm)
    | .err e => .err e
    | .fuelOut => .fuelOut
    | .nm => .nm

/-- The stripped text of line `j` (out-of-range indices never arise: callers
stay within the range bounds). -/
def lineAt (lines : List String) (j : Nat) : List Char :=
  stripChars (lines.getD j default).data

/-- Python `list(arr)` on the value domain: lists iterate as themselves,
strings as their one-character strings, anything else raises `TypeError`
(`Option.none` — turned into the host exception by the caller). -/
def toIterable : Value → Option (List Value)
  | .list l => some l
  | .str s => some (s.data.map (fun c => Value.str (String.mk [c])))
  | _ => Option.none

/-- Install parameter bindings over an environment (`dict(vars)` then
`update(dict(zip(args, vals)))`; `zip` truncates to the shorter list). -/
def bindParams (params : List String) (vals : List Value)
    (vars : List (String × Value)) : List (String × Value) :=
  (params.zip vals).foldl (fun acc p => aset p.1 p.2 acc) vars

/-- Evaluate each call-argument expression in the caller's environment
(call-by-value, left to right). -/
def evalArgs (f : Nat) : List String → Interp → Res (List Value)
  | [], _ => .ok []
  | a :: rest, σ =>
    bindR (evalStr f a σ) fun v =>
      bindR (evalArgs f rest σ) fun vs => .ok (v :: vs)

/-- The depth scan shared by the block-function definition and both loop
handlers: from `j` with the given depth, step over lines while `j < e` and
`depth > 0`, counting opener lines up and `end` lines down; returns the final
`j` (one past the matching `end` when found, `e` otherwise).  The fuel is
`e - j` at the call site, exactly the maximal number of iterations. -/
def scanDepth (lines : List String) (e : Nat) : Nat → Nat → Nat → Nat
  | 0, j, _ => j
  | f + 1, j, depth =>
    if e ≤ j then j
    else if depth = 0 then j
    else
      scanDepth lines e f (j + 1)
        (if isOpener (lineAt lines j) then depth + 1
         else if lineAt lines j = ['e', 'n', 'd'] then depth - 1
         else depth)

/-- The header scan of `_handle_if`: collect, at depth 1, every `elif`/`else:`
line (index and stripped text) and finally the matching `end`; stops without
an `end` entry when the range runs out first.  Fuel as in `scanDepth`. -/
def scanIfHeaders (lines : List String) (e : Nat) : Nat → Nat → Nat → List (Nat × String)
  | 0, _, _ => []
  | f + 1, j, depth =>
    if e ≤ j then []
    else
      let t := lineAt lines j
      if isOpener t then scanIfHeaders lines e f (j + 1) (depth + 1)
      else if t = ['e', 'n', 'd'] then
        if depth = 1 then [(j, "end")]
        else scanIfHeaders lines e f (j + 1) (depth - 1)
      else if depth = 1 && (isElifHeader t || t = ['e', 'l', 's', 'e', ':']) then
        (j, String.mk t) :: scanIfHeaders lines e f (j + 1) depth
      else scanIfHeaders lines e f (j + 1) depth

/-- Build the (condition-or-None, body-start, body-end) arm list from
consecutive header pairs, classifying each header by its prefix exactly as the
source does (`startswith` checks for `if`, `elif`, `else`); the final header
(the `end`, or a dangling one) opens no arm. -/
def buildBlocks : List (Nat × String) → List (Option String × Nat × Nat)
  | [] => []
  | (li, hdr) :: rest =>
    match rest with
    | [] => []
    | (ni, _) :: _ =>
      let tl := buildBlocks rest
      if (dropPre ['i', 'f'] hdr.data).isSome then
        (some (condOfHeader hdr), li + 1, ni) :: tl
      else if (dropPre ['e', 'l', 'i', 'f'] hdr.data).isSome then
        (some (condOfHeader hdr), li + 1, ni) :: tl
      else if (dropPre ['e', 'l', 's', 'e'] hdr.data).isSome then
        (Option.none, li + 1, ni) :: tl
      else tl

/-- Select the arm to execute: the first whose condition is absent (`else`)
or evaluates truthy; condition-evaluation errors propagate. -/
def pickArm (f : Nat) (σ : Interp) : List (Option String × Nat × Nat) → Res (Option (Nat × Nat))
  | [] => .ok Option.none
  | (copt, range) :: rest =>
    match copt with
    | Option.none => .ok (some range)
    | some c =>
      match evalStr f c σ with
      | .ok v => if truthy v then .ok (some range) else pickArm f σ rest
      | .err e2 => .err e2
      | .fuelOut => .fuelOut
      | .nm => .nm

mutual
/-- The statement dispatcher `_exec_block` over `lines[i:e]`: classify the
stripped current line against the statement shapes in the source's order
(`end` / var / mem-write / out / sleep / spawn / if / stray elif-else /
loop-count / loop-each / fn-expr / fn-block / stray return / bare call /
unrecognized) and execute.  Returns the index at which the walk stopped
(one past a consumed `end`, or `e`). -/
def execBlock : Nat → List String → Nat → Nat → Interp → Res (Nat × Interp)
  | 0, _, _, _, _ => .fuelOut
  | f + 1, lines, i, e, σ =>
    if e ≤ i then .ok (i, σ)
    else
      let cs := lineAt lines i
      if cs = ['e', 'n', 'd'] then .ok (i + 1, σ)
      else
        match matchVar cs with
        | some (name, expr) =>
          (match evalStr f expr σ with
           | .ok v => execBlock f lines (i + 1) e { σ with vars := aset name v σ.vars }
           | .err e2 => .err e2
           | .fuelOut => .fuelOut
           | .nm => .nm)
        | Option.none =>
          match matchMem cs with
          | some (idxe, rhs) =>
            (match evalStr f idxe σ with
             | .ok iv =>
               (match toIntPy iv with
                | Option.none => .err .hostExc
                | some k =>
                  match evalStr f rhs σ with
                  | .ok v => execBlock f lines (i + 1) e { σ with mem := aset k v σ.mem }
                  | .err e2 => .err e2
                  | .fuelOut => .fuelOut
                  | .nm => .nm)
             | .err e2 => .err e2
             | .fuelOut => .fuelOut
             | .nm => .nm)
          | Option.none =>
            match matchOut cs with
            | some expr =>
              (match evalStr f expr σ with
               | .ok v => execBlock f lines (i + 1) e { σ with output := σ.output ++ [v] }
               | .err e2 => .err e2
               | .fuelOut => .fuelOut
               | .nm => .nm)
            | Option.none =>
              if matchSleep cs then .nm
              else if matchSpawn cs then .nm
              else if isIfHeader cs then
                match handleIf f lines i e σ with
                | .ok p => execBlock f lines p.1 e p.2
                | .err e2 => .err e2
                | .fuelOut => .fuelOut
                | .nm => .nm
              else if isElifHeader cs || cs = ['e', 'l', 's', 'e', ':'] then
                .err (.runtime "elif/else without matching if")
              else
                match matchLoopCount cs with
                | some ce =>
                  (match handleLoopCount f lines i e ce σ with
                   | .ok p => execBlock f lines p.1 e p.2
                   | .err e2 => .err e2
                   | .fuelOut => .fuelOut
                   | .nm => .nm)
                | Option.none =>
                  match matchLoopEach cs with
                  | some arrName =>
                    (match handleLoopEach f lines i e arrName σ with
                     | .ok p => execBlock f lines p.1 e p.2
                     | .err e2 => .err e2
                     | .fuelOut => .fuelOut
                     | .nm => .nm)
                  | Option.none =>
                    match matchFnExpr cs with
                    | some (name, arglist, expr) =>
                      let fn : Fn := ⟨fnParams arglist, some expr, Option.none⟩
                      execBlock f lines (i + 1) e { σ with funcs := aset name fn σ.funcs }
                    | Option.none =>
                      match matchFnBlock cs with
                      | some (name, arglist) =>
                        let j := scanDepth lines e (e - (i + 1)) (i + 1) 1
                        let body := (lines.drop (i + 1)).take (j - 1 - (i + 1))
                        let fn : Fn := ⟨fnParams arglist, Option.none, some body⟩
                        execBlock f lines j e { σ with funcs := aset name fn σ.funcs }
                      | Option.none =>
                        if isReturnLine cs then
                          .err (.runtime "return used outside of a function")
                        else
                          match matchBareCall cs with
                          | some (name, argstr) =>
                            (match callFunc f name (callArgs argstr) σ with
                             | .ok p => execBlock f lines (i + 1) e p.2
                             | .err e2 => .err e2
                             | .fuelOut => .fuelOut
                             | .nm => .nm)
                          | Option.none =>
                            .err (.runtime ("Unrecognized syntax: " ++ String.mk cs))
termination_by structural f _ _ _ _ => f

/-- The `_handle_if` group handler: scan the chain headers, build the arms,
execute the first matching arm (if any), and resume just past the last header
found (the `end` when the chain is terminated; with no headers beyond the
opener this is `i + 1`). -/
def handleIf : Nat → List String → Nat → Nat → Interp → Res (Nat × Interp)
  | 0, _, _, _, _ => .fuelOut
  | f + 1, lines, i, e, σ =>
    let headers := (i, String.mk (lineAt lines i)) :: scanIfHeaders lines e (e - (i + 1)) (i + 1) 1
    let after := (headers.getLastD (0, default)).1 + 1
    match pickArm f σ (buildBlocks headers) with
    | .ok Option.none => .ok (after, σ)
    | .ok (some (bs, be)) =>
      (match execBlock f lines bs be σ with
       | .ok p => .ok (after, p.2)
       | .err e2 => .err e2
       | .fuelOut => .fuelOut
       | .nm => .nm)
    | .err e2 => .err e2
    | .fuelOut => .fuelOut
    | .nm => .nm
termination_by structural f _ _ _ _ => f

/-- The `loop (N):` handler: find the extent, evaluate the count once with
Python `int` (whose failure propagates), run the body that many times
(`range` clips negatives to zero), resume at the scan result. -/
def handleLoopCount : Nat → List String → Nat → Nat → String → Interp → Res (Nat × Interp)
  | 0, _, _, _, _, _ => .fuelOut
  | f + 1, lines, i, e, ce, σ =>
    let j := scanDepth lines e (e - (i + 1)) (i + 1) 1
    match evalStr f ce σ with
    | .ok v =>
      (match toIntPy v with
       | Option.none => .err .hostExc
       | some cnt =>
         match execNTimes f cnt.toNat lines (i + 1) (j - 1) σ with
         | .ok σ2 => .ok (j, σ2)
         | .err e2 => .err e2
         | .fuelOut => .fuelOut
         | .nm => .nm)
    | .err e2 => .err e2
    | .fuelOut => .fuelOut
    | .nm => .nm
termination_by structural f _ _ _ _ _ => f

/-- Run the body range the given number of times. -/
def execNTimes : Nat → Nat → List String → Nat → Nat → Interp → Res Interp
  | 0, _, _, _, _, _ => .fuelOut
  | f + 1, n, lines, s, t, σ =>
    match n with
    | 0 => .ok σ
    | n + 1 =>
      match execBlock f lines s t σ with
      | .ok p => execNTimes f n lines s t p.2
      | .err e2 => .err e2
      | .fuelOut => .fuelOut
      | .nm => .nm
termination_by structural f _ _ _ _ _ => f

/-- The `loop NAME:` handler: find the extent, fetch the sequence (empty list
when the name is unbound), materialize it with Python `list()` (`TypeError`
propagates for non-iterables), run the body once per element with `item`
bound, then unconditionally pop `item`. -/
def handleLoopEach : Nat → List String → Nat → Nat → String → Interp → Res (Nat × Interp)
  | 0, _, _, _, _, _ => .fuelOut
  | f + 1, lines, i, e, arrName, σ =>
    let j := scanDepth lines e (e - (i + 1)) (i + 1) 1
    match toIterable ((alookup σ.vars arrName).getD (.list [])) with
    | Option.none => .err .hostExc
    | some items =>
      match execForEach f items lines (i + 1) (j - 1) σ with
      | .ok σ2 => .ok (j, { σ2 with vars := adel "item" σ2.vars })
      | .err e2 => .err e2
      | .fuelOut => .fuelOut
      | .nm => .nm
termination_by structural f _ _ _ _ _ => f

/-- Run the body range once per element, binding `item` each pass. -/
def execForEach : Nat → List Value → List String → Nat → Nat → Interp → Res Interp
  | 0, _, _, _, _, _ => .fuelOut
  | f + 1, items, lines, s, t, σ =>
    match items with
    | [] => .ok σ
    | x :: rest =>
      match execBlock f lines s t { σ with vars := aset "item" x σ.vars } with
      | .ok p => execForEach f rest lines s t p.2
      | .err e2 => .err e2
      | .fuelOut => .fuelOut
      | .nm => .nm
termination_by structural f _ _ _ _ _ => f

/-- The `_call_func` model.  Unknown names raise.  Arguments are evaluated in
the caller's environment.  An expression function evaluates its expression
(after its own memory substitution) in a transient environment of the
caller's variables overlaid with the parameters, with NO intrinsics and NO
guard: failures there propagate as host exceptions.  A block function
snapshots the variables, installs the parameters into the live environment,
runs the body lines one at a time through the dispatcher until a top-level
`return `-prefixed line, and restores the snapshot on every exit path. -/
def callFunc : Nat → String → List String → Interp → Res (Value × Interp)
  | 0, _, _, _ => .fuelOut
  | f + 1, name, argExprs, σ =>
    match alookup σ.funcs name with
    | Option.none => .err (.runtime ("Unknown function: " ++ name))
    | some fn =>
      match evalArgs f argExprs σ with
      | .ok vals =>
        (match fn.expr with
         | some ex =>
           (match substMem (fun s => evalStr f s σ) σ.mem ex.data with
            | .ok cs =>
              (match evalPipeline false (bindParams fn.args vals σ.vars) cs with
               | .ok v => .ok (v, σ)
               | .fail => .err .hostExc
               | .nm => .nm)
            | .err e2 => .err e2
            | .fuelOut => .fuelOut
            | .nm => .nm)
         | Option.none =>
           match runBody f (fn.body.getD []) { σ with vars := bindParams fn.args vals σ.vars } with
           | .ok (v, σ2) => .ok (v, { σ2 with vars := σ.vars })
           | .err e2 => .err e2
           | .fuelOut => .fuelOut
           | .nm => .nm)
      | .err e2 => .err e2
      | .fuelOut => .fuelOut
      | .nm => .nm
termination_by structural f _ _ _ => f

/-- Execute block-function body lines sequentially: a stripped line starting
with `return ` evaluates its trailing text and ends the call; every other
line is dispatched as the single-line program `[line]` (the source's
`self._exec_block([line], 0, 1)`); falling off the end yields `None`. -/
def runBody : Nat → List String → Interp → Res (Value × Interp)
  | 0, _, _ => .fuelOut
  | f + 1, body, σ =>
    match body with
    | [] => .ok (.none, σ)
    | l :: rest =>
      let cs := stripChars l.data
      match dropPre ['r', 'e', 't', 'u', 'r', 'n', ' '] cs with
      | some after =>
        (match evalStr f (String.mk after) σ with
         | .ok v => .ok (v, σ)
         | .err e2 => .err e2
         | .fuelOut => .fuelOut
         | .nm => .nm)
      | Option.none =>
        match execBlock f [String.mk cs] 0 1 σ with
        | .ok p => runBody f rest p.2
        | .err e2 => .err e2
        | .fuelOut => .fuelOut
        | .nm => .nm
termination_by structural f _ _ => f
end

/-- Normalize line endings (`\r\n` and `\r` to `\n`). -/
def normNL : List Char → List Char
  | [] => []
  | '\r' :: '\n' :: r => '\n' :: normNL r
  | '\r' :: r => '\n' :: normNL r
  | c :: r => c :: normNL r

/-- Split on newlines, keeping empties. -/
def splitNL : List Char → List (List Char)
  | [] => [[]]
  | '\n' :: r => [] :: splitNL r
  | c :: r =>
    match splitNL r with
    | [] => [[c]]
    | g :: gs => (c :: g) :: gs

/-- Remove everything from the first `###` to the end of the line. -/
def cutComment : List Char → List Char
  | [] => []
  | '#' :: '#' :: '#' :: _ => []
  | c :: r => c :: cutComment r

/-- The `_preprocess` model: normalize newlines, split, strip comments,
right-trim, drop lines that are blank after trimming (keeping the right-
trimmed text of the rest). -/
def preprocess (src : String) : List String :=
  (splitNL (normNL src.data)).filterMap
    (fun l =>
      let l2 := rstripChars (cutComment l)
      if (stripChars l2).isEmpty then Option.none else some (String.mk l2))

/-- The `run_string` entry point: preprocess and execute the whole line
range against a fresh interpreter state. -/
def runString (fuel : Nat) (src : String) : Res (Nat × Interp) :=
  let lines := preprocess src
  execBlock fuel lines 0 lines.length Interp.init

/-- The emitted output of a completed run. -/
def outputOf (r : Res (Nat × Interp)) : Option (List Value) :=
  match r with
  | .ok (_, σ) => some σ.output
  | _ => Option.none

/-! Basic facts about the association-list environment operations. -/

/-- Updating then reading the same key yields the written value. -/
theorem alookup_aset_self {κ α : Type} [DecidableEq κ] (key : κ) (v : α)
    (l : List (κ × α)) : alookup (aset key v l) key = some v := by
  induction l with
  | nil => simp [aset, alookup]
  | cons p rest ih =>
    obtain ⟨k, w⟩ := p
    by_cases h : k = key <;> simp [aset, alookup, h, ih]

/-- After deletion the key is absent. -/
theorem alookup_adel_self {κ α : Type} [DecidableEq κ] (key : κ)
    (l : List (κ × α)) : alookup (adel key l) key = Option.none := by
  induction l with
  | nil => simp [adel, alookup]
  | cons p rest ih =>
    obtain ⟨k, w⟩ := p
    by_cases h : k = key <;> simp [adel, List.filter, alookup, h] at ih ⊢ <;>
      simpa [adel] using ih

/-- Deleting a key erases any update of that key. -/
theorem adel_aset_self {κ α : Type} [DecidableEq κ] (key : κ) (v : α)
    (l : List (κ × α)) : adel key (aset key v l) = adel key l := by
  induction l with
  | nil => simp [aset, adel, List.filter]
  | cons p rest ih =>
    obtain ⟨k, w⟩ := p
    by_cases h : k = key <;> simp [aset, adel, List.filter, h] at ih ⊢<;> simp [ih]

/-! Claim C1: user-function calls in expression position. -/

/-- Claim C1, counterexample.  The spec asserts that the program
`fn sq(n) => n * n` / `out sq(4)` emits `16`; running the model emits the
fallback string `sq(4)` instead, because `_eval`'s environment contains only
the intrinsics and the variables — never the user function table — so the
call is a `NameError` degrading to the string fallback. -/
theorem c1_counterexample :
    outputOf (runString 400 "fn sq(n) => n * n\nout sq(4)") = some [Value.str "sq(4)"] ∧
    outputOf (runString 400 "fn sq(n) => n * n\nout sq(4)") ≠ some [Value.int 16] := by
  have h1 : outputOf (runString 400 "fn sq(n) => n * n\nout sq(4)")
      = some [Value.str "sq(4)"] := rfl
  exact ⟨h1, by rw [h1]; simp⟩

/-- Claim C1, amended.  Calls of a registered user function are recognized
only as bare statement lines, not inside expressions: `out sq(4)` emits the
fallback string `sq(4)`, while the same computation routed through a block
function and a bare call statement does emit `16`. -/
theorem c1_expr_calls_not_recognized :
    outputOf (runString 400 "fn sq(n) => n * n\nout sq(4)") = some [Value.str "sq(4)"] ∧
    outputOf (runString 400 "fn g(n):\nout n * n\nend\ng(4)") = some [Value.int 16] :=
  ⟨rfl, rfl⟩

/-! Claim C2: unterminated blocks. -/

/-- Claim C2, counterexample.  The spec asserts a MalformedBlock error for a
block opener with no matching `end`; instead the program whose `if` has no
`end` completes without error — and even executes the guarded line although
the condition is false. -/
theorem c2_counterexample :
    runString 300 "if (1 > 2):\nout \"oops\""
      = .ok (2, ⟨[], [], [], [Value.str "oops"]⟩) := rfl

/-- Claim C2, amended.  No MalformedBlock error exists: when the header scan
of an `if` opener finds no `end` (and no `elif`/`else` at depth 1), the
handler builds no arm, executes nothing, and resumes at the line after the
opener, so the program continues silently (its guarded lines then run
unguarded at top level, as the counterexample shows). -/
theorem c2_unterminated_if_silent (f : Nat) (lines : List String) (i e : Nat)
    (σ : Interp) (h : scanIfHeaders lines e (e - (i + 1)) (i + 1) 1 = []) :
    handleIf (f + 1) lines i e σ = .ok (i + 1, σ) := by
  simp only [handleIf, h]
  rfl

/-- Witness for the amended C2 theorem at a concrete unterminated program. -/
theorem c2_witness :
    scanIfHeaders ["if (1 > 2):", "out \"oops\""] 2 (2 - (0 + 1)) (0 + 1) 1 = [] ∧
    handleIf 7 ["if (1 > 2):", "out \"oops\""] 0 2 Interp.init = .ok (1, Interp.init) :=
  ⟨rfl, c2_unterminated_if_silent 6 ["if (1 > 2):", "out \"oops\""] 0 2 Interp.init rfl⟩

/-! Claim C3: the expression fallback and what escapes it. -/

/-- Claim C3, counterexample.  The spec asserts that an unevaluable
expression never propagates an error out of the run; but the `int(...)`
conversion inside the memory-read substitution sits outside `_eval`'s
try/except: `out mem[x]` (with `x` unbound) evaluates the index to the
fallback string `"x"`, `int("x")` raises, and the run fails. -/
theorem c3_counterexample : runString 300 "out mem[x]" = .err .hostExc := rfl

/-- Claim C3, amended.  Failures inside the guarded evaluation degrade to the
original text with surrounding double quotes stripped, treated as a string —
`out 1 +` emits the string `1 +` — but a failure converting a memory index to
an integer occurs outside the guard and propagates out of the run. -/
theorem c3_eval_fallback_and_memindex_escape :
    outputOf (runString 300 "out 1 +") = some [Value.str "1 +"] ∧
    runString 300 "out mem[x]" = .err .hostExc :=
  ⟨rfl, rfl⟩

/-! Claim C4: block-function calls restore the variable environment. -/

/-- Claim C4.  A block-bodied function call that returns (with or without
hitting a `return` line) leaves the Variable Environment exactly as it was
before the call: the snapshot taken before parameter binding is restored
unconditionally, so variables introduced during the call are gone and
pre-existing variables have their pre-call values (while memory and output
changes persist, as the witness shows). -/
theorem c4_block_call_restores_vars (f : Nat) (name : String)
    (argExprs : List String) (σ : Interp) (fn : Fn) (v : Value) (σ2 : Interp)
    (hfn : alookup σ.funcs name = some fn) (hblock : fn.expr = Option.none)
    (hok : callFunc f name argExprs σ = .ok (v, σ2)) :
    σ2.vars = σ.vars := by
  cases f with
  | zero => exact absurd hok (by simp [callFunc])
  | succ f =>
    simp only [callFunc, hfn, hblock] at hok
    rcases hEA : evalArgs f argExprs σ with vals | e2 | _ | _ <;>
        rw [hEA] at hok <;> dsimp only at hok
    · rcases hRB : runBody f (fn.body.getD []) { σ with vars := bindParams fn.args vals σ.vars }
          with ⟨v2, σ3⟩ | e2 | _ | _ <;> rw [hRB] at hok <;> dsimp only at hok
      · injection hok with h1
        injection h1 with hv hσ
        rw [← hσ]
      · exact absurd hok (by simp)
      · exact absurd hok (by simp)
      · exact absurd hok (by simp)
    · exact absurd hok (by simp)
    · exact absurd hok (by simp)
    · exact absurd hok (by simp)

/-- A block function whose body declares a variable, writes memory and emits
output (used by the C4 witness). -/
def fnC4 : Fn := ⟨[], Option.none, some ["var z (9)", "mem[0] = 5", "out z"]⟩

/-- Pre-call state for the C4 witness. -/
def sigmaC4 : Interp := ⟨[("a", Value.int 1)], [], [("h", fnC4)], []⟩

/-- Post-call state for the C4 witness: memory and output changed, variables
restored (`z` is gone). -/
def sigmaC4res : Interp := ⟨[("a", Value.int 1)], [(0, Value.int 5)], [("h", fnC4)], [Value.int 9]⟩

/-- Witness for C4 at a concrete call whose body mutates everything. -/
theorem c4_witness :
    callFunc 60 "h" [] sigmaC4 = .ok (Value.none, sigmaC4res) ∧
    sigmaC4res.vars = sigmaC4.vars :=
  ⟨rfl, c4_block_call_restores_vars 60 "h" [] sigmaC4 fnC4 Value.none sigmaC4res rfl rfl rfl⟩

/-! Claim C5: block-function bodies and nested blocks. -/

/-- Claim C5, counterexample.  The spec asserts that a nested multi-line
block inside a block-function body executes exactly as at top level; but the
body runner dispatches one line at a time (`_exec_block([line], 0, 1)`), so
the `if (1 > 2):` header finds no `end` within its one-line program, becomes
a no-op, and the guarded `out "x"` runs unconditionally — the call emits `x`
although the condition is false. -/
theorem c5_counterexample :
    outputOf (runString 400 "fn g():\nif (1 > 2):\nout \"x\"\nend\nend\ng()")
      = some [Value.str "x"] := rfl

/-- Claim C5, amended.  Block-function body lines go through the dispatcher
one line at a time, so a nested multi-line block is NOT delimited: its header
line is dispatched as a complete one-line program (a no-op `if`), its body
lines execute unconditionally, and its `end` line is consumed as a stray
block terminator — unlike the same `if` block at top level, which correctly
skips its body. -/
theorem c5_body_lines_dispatched_singly :
    outputOf (runString 400 "fn g():\nif (1 > 2):\nout \"x\"\nend\nend\ng()")
      = some [Value.str "x"] ∧
    outputOf (runString 400 "if (1 > 2):\nout \"x\"\nend") = some [] :=
  ⟨rfl, rfl⟩

/-! Claim C6: unbounded recursion. -/

/-- The preprocessed lines of the self-recursive program used for C6. -/
def c6Lines : List String := ["fn f():", "f()", "end", "f()"]

/-- The interpreter state right after `fn f(): f() end` is registered; the
recursive cycle runs entirely at this state (no parameters, so the variable
environment never changes). -/
def c6State : Interp := ⟨[], [], [("f", ⟨[], Option.none, some ["f()"]⟩)], []⟩

/-- Claim C6, counterexample.  The spec asserts that pathological
self-recursion fails with a RecursionLimit error from a call-depth counter;
the interpreter has no such counter and no such error: at fuel 25 the model
simply exhausts its fuel (the real interpreter recurses until the host
Python recursion guard kills the run). -/
theorem c6_counterexample : runString 25 "fn f():\nf()\nend\nf()" = .fuelOut := rfl

/-- Claim C6, amended.  There is no call-depth counter and no RecursionLimit
error anywhere in the interpreter; a self-recursive call never completes and
never produces any error value of the language: for every fuel bound the run
of `fn f(): f() end` / `f()` ends in fuel exhaustion (in the real interpreter
the recursion proceeds until the host Python stack guard aborts the run). -/
theorem c6_infinite_recursion_never_completes :
    ∀ fuel : Nat, runString fuel "fn f():\nf()\nend\nf()" = .fuelOut := by
  have key : ∀ n : Nat,
      callFunc n "f" [] c6State = .fuelOut ∧
      runBody n ["f()"] c6State = .fuelOut ∧
      execBlock n ["f()"] 0 1 c6State = .fuelOut := by
    intro n
    induction n with
    | zero => exact ⟨rfl, rfl, rfl⟩
    | succ n ih =>
      refine ⟨?_, ?_, ?_⟩
      · have e : callFunc (n + 1) "f" [] c6State =
            (match runBody n ["f()"] c6State with
             | .ok (v, σ2) => .ok (v, { σ2 with vars := [] })
             | .err e2 => .err e2
             | .fuelOut => .fuelOut
             | .nm => .nm) := rfl
        rw [e, ih.2.1]
      · have e : runBody (n + 1) ["f()"] c6State =
            (match execBlock n ["f()"] 0 1 c6State with
             | .ok p => runBody n [] p.2
             | .err e2 => .err e2
             | .fuelOut => .fuelOut
             | .nm => .nm) := rfl
        rw [e, ih.2.2]
      · have e : execBlock (n + 1) ["f()"] 0 1 c6State =
            (match callFunc n "f" [] c6State with
             | .ok p => execBlock n ["f()"] 1 1 p.2
             | .err e2 => .err e2
             | .fuelOut => .fuelOut
             | .nm => .nm) := rfl
        rw [e, ih.1]
  intro fuel
  cases fuel with
  | zero => rfl
  | succ n =>
    have e0 : runString (n + 1) "fn f():\nf()\nend\nf()"
        = execBlock (n + 1) c6Lines 0 4 Interp.init := rfl
    have e1 : execBlock (n + 1) c6Lines 0 4 Interp.init
        = execBlock n c6Lines 3 4 c6State := rfl
    rw [e0, e1]
    cases n with
    | zero => rfl
    | succ m =>
      have e2 : execBlock (m + 1) c6Lines 3 4 c6State =
          (match callFunc m "f" [] c6State with
           | .ok p => execBlock m c6Lines 4 4 p.2
           | .err e2 => .err e2
           | .fuelOut => .fuelOut
           | .nm => .nm) := rfl
      rw [e2, (key m).1]

/-! Claim C7: if/elif/else arm selection. -/

/-- Whether an arm of an `if` chain would fire: an `else` arm (no condition)
always does; a conditioned arm fires when its condition evaluates to a truthy
value. -/
def armTruthy (f : Nat) (σ : Interp) (arm : Option String × Nat × Nat) : Bool :=
  match arm.1 with
  | Option.none => true
  | some c =>
    match evalStr f c σ with
    | .ok v => truthy v
    | _ => false

/-- Claim C7.  Provided every condition in the chain evaluates without a
propagating error, the arm the interpreter executes is exactly the first arm
in written order that fires (`List.find?` is first-match): the first arm
whose condition is truthy, or the `else` arm when it is reached first, and no
arm at all when none fires; all later arms are skipped.  (`handleIf` then
runs precisely the chosen arm's line range and no other.) -/
theorem c7_first_true_arm_selected (f : Nat) (σ : Interp)
    (arms : List (Option String × Nat × Nat))
    (h : ∀ arm ∈ arms, ∀ c, arm.1 = some c → ∃ v, evalStr f c σ = .ok v) :
    pickArm f σ arms = .ok ((arms.find? (armTruthy f σ)).map (fun a => a.2)) := by
  induction arms with
  | nil => rfl
  | cons a rest ih =>
    obtain ⟨copt, range⟩ := a
    cases copt with
    | none =>
      have ht : armTruthy f σ (Option.none, range) = true := rfl
      rw [List.find?_cons_of_pos _ ht]
      rfl
    | some c =>
      obtain ⟨v, hv⟩ := h (some c, range) (List.mem_cons_self _ _) c rfl
      have e : pickArm f σ ((some c, range) :: rest) =
          (match evalStr f c σ with
           | .ok v => if truthy v then .ok (some range) else pickArm f σ rest
           | .err e2 => .err e2
           | .fuelOut => .fuelOut
           | .nm => .nm) := rfl
      have ha : armTruthy f σ (some c, range) = truthy v := by
        simp [armTruthy, hv]
      by_cases ht : truthy v = true
      · rw [e, hv]
        simp only [ht, if_true]
        rw [List.find?_cons_of_pos _ (by rw [ha]; exact ht)]
        rfl
      · rw [e, hv]
        simp only [Bool.not_eq_true] at ht
        simp only [ht, Bool.false_eq_true, if_false]
        rw [List.find?_cons_of_neg _ (by rw [ha]; simp [ht])]
        exact ih (fun arm hm c' hc' => h arm (List.mem_cons_of_mem _ hm) c' hc')

/-- A three-arm chain (false condition, true condition, else) for the C7
witness. -/
def c7Arms : List (Option String × Nat × Nat) :=
  [(some "1 > 2", 1, 2), (some "2 > 1", 3, 4), (Option.none, 5, 6)]

/-- Witness for C7: on the concrete chain the second arm (first truthy
condition) is selected, skipping it would have reached the else arm. -/
theorem c7_witness :
    pickArm 5 Interp.init c7Arms
      = .ok ((c7Arms.find? (armTruthy 5 Interp.init)).map (fun a => a.2)) ∧
    pickArm 5 Interp.init c7Arms = .ok (some (3, 4)) := by
  constructor
  · refine c7_first_true_arm_selected 5 Interp.init c7Arms ?_
    intro arm hm c hc
    simp only [c7Arms, List.mem_cons, List.not_mem_nil, or_false] at hm
    rcases hm with h1 | h2 | h3
    · rw [h1] at hc
      injection hc with hc'
      subst hc'
      exact ⟨Value.bool false, rfl⟩
    · rw [h2] at hc
      injection hc with hc'
      subst hc'
      exact ⟨Value.bool true, rfl⟩
    · rw [h3] at hc
      exact absurd hc (by simp)
  · rfl

/-! Claims C9/C10: the element loop. -/

/-- The canonical element-loop program used by the C9 and C10 theorems:
`loop a:` / `out item` / `end`. -/
def loopLines : List String := ["loop a:", "out item", "end"]

/-- Claim C10.  Whenever a `loop NAME:` statement completes normally, the
variable `item` is absent from the resulting environment: the handler
unconditionally pops `item` on exit (even when a binding for `item` existed
before the loop, and even when the loop ran zero passes), rather than
restoring any pre-existing binding. -/
theorem c10_item_unconditionally_deleted (f : Nat) (lines : List String)
    (i e : Nat) (arrName : String) (σ : Interp) (j : Nat) (σ2 : Interp)
    (h : handleLoopEach f lines i e arrName σ = .ok (j, σ2)) :
    alookup σ2.vars "item" = Option.none := by
  cases f with
  | zero => simp [handleLoopEach] at h
  | succ f =>
    simp only [handleLoopEach] at h
    rcases hit : toIterable ((alookup σ.vars arrName).getD (.list [])) with _ | items <;>
        rw [hit] at h <;> dsimp only at h
    · exact absurd h (by simp)
    · rcases hfe : execForEach f items lines (i + 1)
          (scanDepth lines e (e - (i + 1)) (i + 1) 1 - 1) σ with σ3 | e2 | _ | _ <;>
        rw [hfe] at h <;> dsimp only at h
      · injection h with h1
        injection h1 with hj hσ
        rw [← hσ]
        exact alookup_adel_self "item" σ3.vars
      · exact absurd h (by simp)
      · exact absurd h (by simp)
      · exact absurd h (by simp)

/-- C10 witness: state with `item` bound before the loop. -/
def sigmaC10 : Interp := ⟨[("item", Value.int 9), ("a", Value.list [Value.int 7])], [], [], []⟩

/-- C10 witness: state after the loop — the pre-existing `item` binding is
gone, not restored. -/
def sigmaC10res : Interp := ⟨[("a", Value.list [Value.int 7])], [], [], [Value.int 7]⟩

/-- Witness for C10 at a concrete loop whose `item` was bound beforehand. -/
theorem c10_witness :
    handleLoopEach 20 loopLines 0 3 "a" sigmaC10 = .ok (3, sigmaC10res) ∧
    alookup sigmaC10res.vars "item" = Option.none :=
  ⟨rfl, c10_item_unconditionally_deleted 20 loopLines 0 3 "a" sigmaC10 3 sigmaC10res rfl⟩
/-- Evaluating the bare identifier `item` under `_eval` yields its bound
value (the guarded pipeline resolves it against the variable environment). -/
theorem evalStr_item (h : Nat) (σ : Interp) (x : Value)
    (hx : alookup σ.vars "item" = some x) :
    evalStr (h + 1) "item" σ = .ok x := by
  have e1 : evalStr (h + 1) "item" σ =
      (match evalPipeline true σ.vars ['i', 't', 'e', 'm'] with
       | .ok v => Res.ok v
       | .fail => .ok (fallbackVal "item")
       | .nm => .nm) := by rfl
  have e2 : evalPipeline true σ.vars ['i', 't', 'e', 'm'] =
      (match alookup σ.vars "item" with
       | some v => TR.ok v
       | Option.none => .fail) := by rfl
  rw [e1, e2, hx]

/-- One pass of the loop body `out item`: it appends the current `item`
binding to the output and changes nothing else. -/
theorem c9_body (g : Nat) (σ : Interp) (x : Value) (hg : 2 ≤ g)
    (hx : alookup σ.vars "item" = some x) :
    execBlock g loopLines 1 2 σ = .ok (2, { σ with output := σ.output ++ [x] }) := by
  obtain ⟨h, rfl⟩ : ∃ h, g = h + 2 := ⟨g - 2, by omega⟩
  have e1 : execBlock (h + 1 + 1) loopLines 1 2 σ =
      (match evalStr (h + 1) "item" σ with
       | .ok v => execBlock (h + 1) loopLines 2 2 { σ with output := σ.output ++ [v] }
       | .err e2 => .err e2
       | .fuelOut => .fuelOut
       | .nm => .nm) := by rfl
  rw [e1, evalStr_item h σ x hx]
  dsimp only
  rfl

/-- The variable environment after the loop passes: `item` overwritten once
per element. -/
def iterVars : List Value → List (String × Value) → List (String × Value)
  | [], l => l
  | x :: rest, l => iterVars rest (aset "item" x l)

/-- Popping `item` erases all the per-pass overwrites. -/
theorem adel_iterVars (xs : List Value) :
    ∀ l, adel "item" (iterVars xs l) = adel "item" l := by
  induction xs with
  | nil => intro l; rfl
  | cons x rest ih =>
    intro l
    calc adel "item" (iterVars rest (aset "item" x l))
        = adel "item" (aset "item" x l) := ih _
      _ = adel "item" l := adel_aset_self _ _ _

/-- The per-element runner executes the body once per element, in order,
with `item` bound to the current element: the output grows by exactly the
element list. -/
theorem c9_each (xs : List Value) : ∀ (f : Nat) (σ : Interp), 3 * xs.length + 1 ≤ f →
    execForEach f xs loopLines 1 2 σ
      = .ok { σ with vars := iterVars xs σ.vars, output := σ.output ++ xs } := by
  induction xs with
  | nil =>
    intro f σ hf
    obtain ⟨h, rfl⟩ : ∃ h, f = h + 1 := ⟨f - 1, by omega⟩
    show Res.ok σ = _
    simp [iterVars]
  | cons x rest ih =>
    intro f σ hf
    obtain ⟨h, rfl⟩ : ∃ h, f = h + 1 := ⟨f - 1, by omega⟩
    have e1 : execForEach (h + 1) (x :: rest) loopLines 1 2 σ =
        (match execBlock h loopLines 1 2 { σ with vars := aset "item" x σ.vars } with
         | .ok p => execForEach h rest loopLines 1 2 p.2
         | .err e2 => .err e2
         | .fuelOut => .fuelOut
         | .nm => .nm) := by rfl
    rw [e1, c9_body h _ x (by simp at hf ⊢; omega) (alookup_aset_self _ _ _)]
    dsimp only
    rw [ih h _ (by simp at hf ⊢; omega)]
    simp [iterVars]

/-- Claim C9, amended.  For `loop a:` over a body `out item`, the body
executes once per element of the list bound to `a`, in order, with `item`
bound to the current element during each pass (the output is extended by
exactly the element list) and `item` deleted immediately after the loop; when
`a` is unbound the body executes zero times (output unchanged).  The
remaining part of the original claim is false: a non-iterable binding does
not give zero passes but raises a TypeError (see the counterexample). -/
theorem c9_loop_each_iterates_in_order (f : Nat) (xs : List Value) (σ : Interp)
    (hf : 3 * xs.length + 3 ≤ f) (hxs : alookup σ.vars "a" = some (.list xs)) :
    handleLoopEach f loopLines 0 3 "a" σ
      = .ok (3, { σ with vars := adel "item" σ.vars, output := σ.output ++ xs }) ∧
    (∀ σ2 : Interp, alookup σ2.vars "a" = Option.none →
      handleLoopEach f loopLines 0 3 "a" σ2 = .ok (3, { σ2 with vars := adel "item" σ2.vars })) := by
  obtain ⟨h, rfl⟩ : ∃ h, f = h + 1 := ⟨f - 1, by omega⟩
  constructor
  · have e1 : handleLoopEach (h + 1) loopLines 0 3 "a" σ =
        (match toIterable ((alookup σ.vars "a").getD (.list [])) with
         | Option.none => .err .hostExc
         | some items =>
           match execForEach h items loopLines 1 2 σ with
           | .ok σ2 => .ok (3, { σ2 with vars := adel "item" σ2.vars })
           | .err e2 => .err e2
           | .fuelOut => .fuelOut
           | .nm => .nm) := by rfl
    rw [e1, hxs]
    dsimp only [Option.getD, toIterable]
    rw [c9_each xs h σ (by omega)]
    dsimp only
    rw [adel_iterVars]
  · intro σ2 h2
    have e1 : handleLoopEach (h + 1) loopLines 0 3 "a" σ2 =
        (match toIterable ((alookup σ2.vars "a").getD (.list [])) with
         | Option.none => .err .hostExc
         | some items =>
           match execForEach h items loopLines 1 2 σ2 with
           | .ok σ3 => .ok (3, { σ3 with vars := adel "item" σ3.vars })
           | .err e2 => .err e2
           | .fuelOut => .fuelOut
           | .nm => .nm) := by rfl
    rw [e1, h2]
    dsimp only [Option.getD, toIterable]
    rw [c9_each [] h σ2 (by simp only [List.length_nil]; omega)]
    dsimp only
    simp [iterVars]

/-- Claim C9, counterexample.  The claim says a name bound to a non-iterable
value makes the loop body execute zero times; instead `list()` raises a
TypeError and the whole run fails. -/
theorem c9_counterexample :
    runString 400 "var x (5)\nloop x:\nout \"hi\"\nend" = .err .hostExc := rfl

/-- Pre-loop state for the C9 witness. -/
def sigmaC9 : Interp := ⟨[("a", Value.list [Value.int 7, Value.str "b"])], [], [], []⟩

/-- Witness for the amended C9 theorem on a concrete two-element list. -/
theorem c9_witness :
    (3 * ([Value.int 7, Value.str "b"] : List Value).length + 3 ≤ 20) ∧
    handleLoopEach 20 loopLines 0 3 "a" sigmaC9
      = .ok (3, ⟨[("a", Value.list [Value.int 7, Value.str "b"])], [], [],
          [Value.int 7, Value.str "b"]⟩) := by
  refine ⟨by decide, ?_⟩
  have h := (c9_loop_each_iterates_in_order 20 [Value.int 7, Value.str "b"] sigmaC9
      (by decide) rfl).1
  rw [h]
  rfl

/-! ### C8: the memory read round-trip (repr splice, tokenize, parse, evaluate) -/

/-- The ten decimal digit characters. -/
def digitChars : List Char := ['0', '1', '2', '3', '4', '5', '6', '7', '8', '9']

theorem digitChar_mem (m : Nat) (h : m < 10) : digitChar m ∈ digitChars := by
  interval_cases m <;> decide

theorem digitChar_toNat (m : Nat) (h : m < 10) : (digitChar m).toNat - 48 = m := by
  interval_cases m <;> decide

theorem digitsVal_append (ds : List Char) (d : Char) :
    digitsVal (ds ++ [d]) = digitsVal ds * 10 + (d.toNat - 48) := by
  simp [digitsVal, List.foldl_append]

theorem digit_char_facts (c : Char) (h : c ∈ digitChars) :
    isWS c = false ∧ (c = '(') = False ∧ (c = ')') = False ∧ (c = '[') = False ∧
    (c = ']') = False ∧ (c = ',') = False ∧ (c = '+') = False ∧ (c = '-') = False ∧
    (c = '*') = False ∧ (c = '=') = False ∧ (c = '!') = False ∧ (c = '<') = False ∧
    (c = '>') = False ∧ (c = '"') = False ∧ (c = '\'') = False ∧ (c = '#') = False ∧
    c.isDigit = true ∧ (c = 'm') = False ∧ (c = ']') = False := by
  fin_cases h <;> refine ⟨rfl, ?_⟩ <;> (repeat constructor) <;> decide

theorem natToCharsAux_spec : ∀ f n, n < f →
    digitsVal (natToCharsAux f n) = n ∧ natToCharsAux f n ≠ [] ∧
      ∀ c ∈ natToCharsAux f n, c ∈ digitChars := by
  intro f
  induction f with
  | zero => intro n h; omega
  | succ f ih =>
    intro n hn
    by_cases h10 : n < 10
    · refine ⟨?_, ?_, ?_⟩ <;> simp [natToCharsAux, h10]
      · simpa [digitsVal] using digitChar_toNat n h10
      · exact digitChar_mem n h10
    · have hdiv : n / 10 < n := Nat.div_lt_self (by omega) (by omega)
      obtain ⟨ih1, ih2, ih3⟩ := ih (n / 10) (by omega)
      refine ⟨?_, ?_, ?_⟩ <;> simp [natToCharsAux, h10]
      · rw [digitsVal_append, ih1, digitChar_toNat (n % 10) (by omega)]
        omega
      · intro c hc
        rcases hc with hc | hc
        · exact ih3 c hc
        · rw [hc]; exact digitChar_mem (n % 10) (by omega)

theorem natToChars_spec (n : Nat) :
    digitsVal (natToChars n) = n ∧ natToChars n ≠ [] ∧
      ∀ c ∈ natToChars n, c ∈ digitChars :=
  natToCharsAux_spec (n + 1) n (by omega)

theorem spanP_append (p : Char → Bool) : ∀ (ds rest : List Char),
    (∀ c ∈ ds, p c = true) →
    (match rest with | [] => True | c :: _ => p c = false) →
    spanP p (ds ++ rest) = (ds, rest) := by
  intro ds
  induction ds with
  | nil =>
    intro rest _ hrest
    cases rest with
    | nil => rfl
    | cons c r => simp [spanP, hrest]
  | cons d ds ih =>
    intro rest hds hrest
    have hd : p d = true := hds d (by simp)
    have e : spanP p ((d :: ds) ++ rest)
        = if p d then
            (match spanP p (ds ++ rest) with | (tk, rs) => (d :: tk, rs))
          else ([], d :: (ds ++ rest)) := rfl
    rw [e, if_pos hd, ih rest (fun c hc => hds c (by simp [hc])) hrest]

theorem strLit_esc : ∀ (cs : List Char) (acc rest : List Char),
    strLit '\'' (escChars cs ++ '\'' :: rest) acc
      = .ok (String.mk (acc.reverse ++ cs), rest) := by
  intro cs
  induction cs with
  | nil =>
    intro acc rest
    rw [escChars, List.nil_append, strLit.eq_def]
    simp
  | cons c cs ih =>
    intro acc rest
    by_cases hc : c = '\\' ∨ c = '\''
    · have he : escChar c = ['\\', c] := by
        rcases hc with h | h <;> simp [escChar, h]
      simp only [escChars, he, List.cons_append, List.nil_append, List.append_assoc]
      have h1 : strLit '\'' ('\\' :: (c :: (escChars cs ++ '\'' :: rest))) acc
          = strLit '\'' (escChars cs ++ '\'' :: rest) (c :: acc) := by
        rw [strLit.eq_def]
        rcases hc with h | h <;> simp [h]
      rw [h1, ih (c :: acc) rest]
      simp
    · push_neg at hc
      have he : escChar c = [c] := by simp [escChar, hc.1, hc.2]
      simp only [escChars, he, List.cons_append, List.nil_append, List.append_assoc]
      have h1 : strLit '\'' (c :: (escChars cs ++ '\'' :: rest)) acc
          = strLit '\'' (escChars cs ++ '\'' :: rest) (c :: acc) := by
        rw [strLit.eq_def]
        simp [hc.1, hc.2]
      rw [h1, ih (c :: acc) rest]
      simp

theorem mem_digitChars_isDigit (c : Char) (h : c ∈ digitChars) : c.isDigit = true := by
  fin_cases h <;> decide

/-- Separator context after a repr: nothing, a comma, or a closing bracket. -/
def sepHead : List Char → Prop
  | [] => True
  | c :: _ => c = ',' ∨ c = ']'

/-- Prepend a token list to a tokenizer result. -/
def trList (ts : List Tok) : TR (List Tok) → TR (List Tok)
  | .ok us => .ok (ts ++ us)
  | .fail => .fail
  | .nm => .nm

theorem trList_nil (r : TR (List Tok)) : trList [] r = r := by
  cases r <;> simp [trList]

theorem trCons_trList (t : Tok) (ts : List Tok) (r : TR (List Tok)) :
    trCons t (trList ts r) = trList (t :: ts) r := by
  cases r <;> rfl

theorem trCons_eq_trList (t : Tok) (r : TR (List Tok)) : trCons t r = trList [t] r := by
  cases r <;> rfl

theorem trList_trList (ts us : List Tok) (r : TR (List Tok)) :
    trList ts (trList us r) = trList (ts ++ us) r := by
  cases r <;> simp [trList]

mutual
/-- The token sequence of a value's repr text. -/
def reprToks : Value → List Tok
  | .int (.ofNat n) => [.int n]
  | .int (.negSucc n) => [.minus, .int (n + 1)]
  | .bool true => [.ktrue]
  | .bool false => [.kfalse]
  | .none => [.knone]
  | .str s => [.str s]
  | .list l => .lbrack :: (reprToksL l ++ [.rbrack])

/-- Token sequences of list elements, comma separated. -/
def reprToksL : List Value → List Tok
  | [] => []
  | [v] => reprToks v
  | v :: w :: rest => reprToks v ++ .comma :: reprToksL (w :: rest)
end

mutual
/-- Tokenizer fuel consumed by a value's repr text. -/
def spentRepr : Value → Nat
  | .int (.ofNat _) => 1
  | .int (.negSucc _) => 2
  | .bool _ => 1
  | .none => 1
  | .str _ => 1
  | .list l => 2 + spentReprL l

/-- Tokenizer fuel consumed by comma-space separated element reprs. -/
def spentReprL : List Value → Nat
  | [] => 0
  | [v] => spentRepr v
  | v :: w :: rest => spentRepr v + 2 + spentReprL (w :: rest)
end

theorem tokenize_space (f : Nat) (cs : List Char) :
    tokenize (f + 1) (' ' :: cs) = tokenize f cs := by rfl

theorem tokenize_comma_step (f : Nat) (cs : List Char) :
    tokenize (f + 1) (',' :: cs) = trCons .comma (tokenize f cs) := by rfl

theorem tokenize_lbrack_step (f : Nat) (cs : List Char) :
    tokenize (f + 1) ('[' :: cs) = trCons .lbrack (tokenize f cs) := by rfl

theorem tokenize_rbrack_step (f : Nat) (cs : List Char) :
    tokenize (f + 1) (']' :: cs) = trCons .rbrack (tokenize f cs) := by rfl

theorem tokenize_minus_step (f : Nat) (cs : List Char) :
    tokenize (f + 1) ('-' :: cs) = trCons .minus (tokenize f cs) := by rfl

theorem tokenize_quote_step (f : Nat) (cs : List Char) :
    tokenize (f + 1) ('\'' :: cs)
      = (match strLit '\'' cs [] with
         | .ok (s, rest) => trCons (.str s) (tokenize f rest)
         | .fail => .fail
         | .nm => .nm) := by rfl

theorem sepHead_not_digit : ∀ (rest : List Char), sepHead rest →
    (match rest with | [] => True | c :: _ => Char.isDigit c = false)
  | [], _ => trivial
  | c :: r, h => by
    rcases h with h | h <;> subst h
    · exact (rfl : Char.isDigit ',' = false)
    · exact (rfl : Char.isDigit ']' = false)

theorem tokenize_digits (f : Nat) (ds rest : List Char) (hne : ds ≠ [])
    (hds : ∀ c ∈ ds, c ∈ digitChars) (hrest : sepHead rest) :
    tokenize (f + 1) (ds ++ rest) = trCons (.int (digitsVal ds)) (tokenize f rest) := by
  match ds, hne with
  | d :: ds', _ =>
    obtain ⟨h1, h2, h3, h4, h5, h6, h7, h8, h9, h10, h11, h12, h13, h14, h15, h16,
      h17, _, _⟩ := digit_char_facts d (hds d (by simp))
    have hspan : spanP Char.isDigit ((d :: ds') ++ rest) = (d :: ds', rest) :=
      spanP_append _ _ _ (fun c hc => mem_digitChars_isDigit c (hds c hc))
        (sepHead_not_digit rest hrest)
    have hbad : numTailBad rest = false := by
      cases rest with
      | nil => rfl
      | cons c r =>
        rcases hrest with h | h <;> subst h
        · exact (rfl : numTailBad (',' :: r) = false)
        · exact (rfl : numTailBad (']' :: r) = false)
    rw [List.cons_append, tokenize.eq_def]
    simp only [h1, h2, h3, h4, h5, h6, h7, h8, h9, h10, h11, h12, h13, h14, h15, h16, h17,
      Bool.false_eq_true, if_false, if_true, ite_false, ite_true]
    rw [← List.cons_append, hspan]
    simp [hbad]

theorem sepHead_not_ident : ∀ (rest : List Char), sepHead rest →
    (match rest with | [] => True | c :: _ => isIdentChar c = false)
  | [], _ => trivial
  | c :: r, h => by
    rcases h with h | h <;> subst h
    · exact (rfl : isIdentChar ',' = false)
    · exact (rfl : isIdentChar ']' = false)

theorem tokenize_true_step (f : Nat) (rest : List Char) (hrest : sepHead rest) :
    tokenize (f + 1) ('T' :: 'r' :: 'u' :: 'e' :: rest) = trCons .ktrue (tokenize f rest) := by
  have hspan : spanP isIdentChar ('r' :: 'u' :: 'e' :: rest) = (['r', 'u', 'e'], rest) := by
    have h := spanP_append isIdentChar ['r', 'u', 'e'] rest (by decide)
      (sepHead_not_ident rest hrest)
    simpa using h
  have hti : takeIdent ('T' :: 'r' :: 'u' :: 'e' :: rest) = some ("True", rest) := by
    simp only [takeIdent.eq_def]
    rw [hspan]
    rfl
  rw [tokenize.eq_def]
  simp [hti]
  rfl

theorem tokenize_false_step (f : Nat) (rest : List Char) (hrest : sepHead rest) :
    tokenize (f + 1) ('F' :: 'a' :: 'l' :: 's' :: 'e' :: rest)
      = trCons .kfalse (tokenize f rest) := by
  have hspan : spanP isIdentChar ('a' :: 'l' :: 's' :: 'e' :: rest)
      = (['a', 'l', 's', 'e'], rest) := by
    have h := spanP_append isIdentChar ['a', 'l', 's', 'e'] rest (by decide)
      (sepHead_not_ident rest hrest)
    simpa using h
  have hti : takeIdent ('F' :: 'a' :: 'l' :: 's' :: 'e' :: rest) = some ("False", rest) := by
    simp only [takeIdent.eq_def]
    rw [hspan]
    rfl
  rw [tokenize.eq_def]
  simp [hti]
  rfl

theorem tokenize_none_step (f : Nat) (rest : List Char) (hrest : sepHead rest) :
    tokenize (f + 1) ('N' :: 'o' :: 'n' :: 'e' :: rest) = trCons .knone (tokenize f rest) := by
  have hspan : spanP isIdentChar ('o' :: 'n' :: 'e' :: rest) = (['o', 'n', 'e'], rest) := by
    have h := spanP_append isIdentChar ['o', 'n', 'e'] rest (by decide)
      (sepHead_not_ident rest hrest)
    simpa using h
  have hti : takeIdent ('N' :: 'o' :: 'n' :: 'e' :: rest) = some ("None", rest) := by
    simp only [takeIdent.eq_def]
    rw [hspan]
    rfl
  rw [tokenize.eq_def]
  simp [hti]
  rfl

theorem tokenize_str_step (f : Nat) (s : String) (rest : List Char) :
    tokenize (f + 1) ('\'' :: (escChars s.data ++ '\'' :: rest))
      = trCons (.str s) (tokenize f rest) := by
  obtain ⟨sd⟩ := s
  rw [tokenize_quote_step, strLit_esc]
  simp

mutual
theorem tokenize_repr : ∀ (v : Value) (rest : List Char) (f : Nat), sepHead rest →
    tokenize (f + spentRepr v) (reprChars v ++ rest) = trList (reprToks v) (tokenize f rest)
  | .int (.ofNat n), rest, f, hrest => by
    have h := natToChars_spec n
    show tokenize (f + 1) (natToChars n ++ rest) = _
    rw [tokenize_digits f (natToChars n) rest h.2.1 h.2.2 hrest, h.1, trCons_eq_trList]
    rfl
  | .int (.negSucc n), rest, f, hrest => by
    have h := natToChars_spec (n + 1)
    show tokenize ((f + 1) + 1) ('-' :: (natToChars (n + 1) ++ rest)) = _
    rw [tokenize_minus_step, tokenize_digits f _ rest h.2.1 h.2.2 hrest, h.1,
      trCons_eq_trList (Tok.int (n + 1)), trCons_trList]
    rfl
  | .bool true, rest, f, hrest => by
    show tokenize (f + 1) ('T' :: 'r' :: 'u' :: 'e' :: rest) = _
    rw [tokenize_true_step f rest hrest, trCons_eq_trList]
    rfl
  | .bool false, rest, f, hrest => by
    show tokenize (f + 1) ('F' :: 'a' :: 'l' :: 's' :: 'e' :: rest) = _
    rw [tokenize_false_step f rest hrest, trCons_eq_trList]
    rfl
  | .none, rest, f, hrest => by
    show tokenize (f + 1) ('N' :: 'o' :: 'n' :: 'e' :: rest) = _
    rw [tokenize_none_step f rest hrest, trCons_eq_trList]
    rfl
  | .str s, rest, f, hrest => by
    have hc : reprChars (Value.str s) ++ rest = '\'' :: (escChars s.data ++ '\'' :: rest) := by
      simp [reprChars]
    rw [hc]
    show tokenize (f + 1) _ = _
    rw [tokenize_str_step f s rest, trCons_eq_trList]
    rfl
  | .list l, rest, f, hrest => by
    have hc : reprChars (Value.list l) ++ rest = '[' :: (reprCharsL l ++ ']' :: rest) := by
      simp [reprChars]
    have hf : f + spentRepr (Value.list l) = ((f + 1) + spentReprL l) + 1 := by
      rw [show spentRepr (Value.list l) = 2 + spentReprL l from rfl]
      omega
    rw [hc, hf, tokenize_lbrack_step, tokenize_reprL l rest f, trCons_trList]
    rfl

theorem tokenize_reprL : ∀ (l : List Value) (rest : List Char) (f : Nat),
    tokenize ((f + 1) + spentReprL l) (reprCharsL l ++ ']' :: rest)
      = trList (reprToksL l ++ [.rbrack]) (tokenize f rest)
  | [], rest, f => by
    show tokenize (f + 1) (']' :: rest) = _
    rw [tokenize_rbrack_step, trCons_eq_trList]
    rfl
  | [v], rest, f => by
    show tokenize ((f + 1) + spentRepr v) (reprChars v ++ ']' :: rest) = _
    rw [tokenize_repr v (']' :: rest) (f + 1) (Or.inr rfl), tokenize_rbrack_step,
      trCons_eq_trList, trList_trList]
    rfl
  | v :: w :: rest2, rest, f => by
    have hc : reprCharsL (v :: w :: rest2) ++ ']' :: rest
        = reprChars v ++ (',' :: ' ' :: (reprCharsL (w :: rest2) ++ ']' :: rest)) := by
      rw [show reprCharsL (v :: w :: rest2)
          = reprChars v ++ ',' :: ' ' :: reprCharsL (w :: rest2) from rfl]
      simp
    have hf : (f + 1) + spentReprL (v :: w :: rest2)
        = ((((f + 1) + spentReprL (w :: rest2)) + 1) + 1) + spentRepr v := by
      rw [show spentReprL (v :: w :: rest2)
          = spentRepr v + 2 + spentReprL (w :: rest2) from rfl]
      omega
    rw [hc, hf,
      tokenize_repr v (',' :: ' ' :: (reprCharsL (w :: rest2) ++ ']' :: rest))
        ((((f + 1) + spentReprL (w :: rest2)) + 1) + 1) (Or.inl rfl),
      tokenize_comma_step, tokenize_space,
      tokenize_reprL (w :: rest2) rest f, trCons_trList, trList_trList]
    rw [show reprToksL (v :: w :: rest2)
        = reprToks v ++ Tok.comma :: reprToksL (w :: rest2) from rfl]
    simp
end

/-- Separator context after a parsed atom inside a repr: nothing, a comma or
a closing bracket. -/
def stopTok : List Tok → Prop
  | [] => True
  | t :: _ => t = .comma ∨ t = .rbrack

mutual
/-- The expression tree the parser produces from a value's repr tokens. -/
def exprOfVal : Value → Expr
  | .int (.ofNat n) => .lit (.int n)
  | .int (.negSucc n) => .un .neg (.lit (.int (n + 1)))
  | .bool b => .lit (.bool b)
  | .none => .lit .none
  | .str s => .lit (.str s)
  | .list l => .elist (exprOfValL l)

/-- Element-wise `exprOfVal`. -/
def exprOfValL : List Value → ExprList
  | [] => .nil
  | v :: r => .cons (exprOfVal v) (exprOfValL r)
end

/-- Append two argument lists. -/
def appendEL : ExprList → ExprList → ExprList
  | .nil, ys => ys
  | .cons x xs, ys => .cons x (appendEL xs ys)

theorem appendEL_snoc : ∀ (xs : ExprList) (e : Expr) (ys : ExprList),
    appendEL (xs.snoc e) ys = appendEL xs (.cons e ys)
  | .nil, e, ys => rfl
  | .cons x xs, e, ys => by
    simp only [ExprList.snoc, appendEL, appendEL_snoc xs e ys]

theorem appendEL_cons_nil : ∀ (acc : ExprList) (e : Expr),
    appendEL acc (.cons e .nil) = acc.snoc e
  | .nil, e => rfl
  | .cons x xs, e => by
    simp only [ExprList.snoc, appendEL, appendEL_cons_nil xs e]

/-- Tokens of the tail of a comma-separated element list, closing bracket
included (head-structural version of `reprToksL l ++ [.rbrack]`). -/
def sepTailR (rest : List Tok) : List Value → List Tok
  | [] => .rbrack :: rest
  | v :: l => .comma :: (reprToks v ++ sepTailR rest l)

theorem sepTailR_eq (rest : List Tok) : ∀ (v : Value) (l : List Value),
    reprToksL (v :: l) ++ .rbrack :: rest = reprToks v ++ sepTailR rest l
  | v, [] => rfl
  | v, w :: l => by
    rw [show reprToksL (v :: w :: l) = reprToks v ++ .comma :: reprToksL (w :: l) from rfl,
      show sepTailR rest (w :: l) = .comma :: (reprToks w ++ sepTailR rest l) from rfl,
      ← sepTailR_eq rest w l]
    simp

theorem postAtom_stop (e : Expr) (rest : List Tok) (h : stopTok rest) :
    postAtom e rest = .ok e rest := by
  rcases rest with _ | ⟨t, r⟩
  · rfl
  · rcases h with h | h <;> subst h <;> rfl

theorem pOrR_stop (f : Nat) (e : Expr) (rest : List Tok) (h : stopTok rest) :
    pOrR (f + 1) e rest = .ok e rest := by
  rcases rest with _ | ⟨t, r⟩
  · rfl
  · rcases h with h | h <;> subst h <;> rfl

theorem pAndR_stop (f : Nat) (e : Expr) (rest : List Tok) (h : stopTok rest) :
    pAndR (f + 1) e rest = .ok e rest := by
  rcases rest with _ | ⟨t, r⟩
  · rfl
  · rcases h with h | h <;> subst h <;> rfl

theorem pAddR_stop (f : Nat) (e : Expr) (rest : List Tok) (h : stopTok rest) :
    pAddR (f + 1) e rest = .ok e rest := by
  rcases rest with _ | ⟨t, r⟩
  · rfl
  · rcases h with h | h <;> subst h <;> rfl

theorem pMulR_stop (f : Nat) (e : Expr) (rest : List Tok) (h : stopTok rest) :
    pMulR (f + 1) e rest = .ok e rest := by
  rcases rest with _ | ⟨t, r⟩
  · rfl
  · rcases h with h | h <;> subst h <;> rfl

theorem cmpOp_stop (rest : List Tok) (h : stopTok rest) : cmpOp rest = Option.none := by
  rcases rest with _ | ⟨t, r⟩
  · rfl
  · rcases h with h | h <;> subst h <;> rfl

theorem pNot_pass (f : Nat) (t : Tok) (r : List Tok) (ht : t ≠ .knot) :
    pNot (f + 1) (t :: r) = pCmp f (t :: r) := by
  cases t <;> first | rfl | exact absurd rfl ht

theorem lift_chain (g : Nat) (ts rest : List Tok) (e : Expr)
    (hknot : ∀ r', ts ≠ .knot :: r') (hstop : stopTok rest)
    (hun : pUn (g + 1) ts = .ok e rest) :
    pOr (g + 7) ts = .ok e rest := by
  have hmul : pMul (g + 2) ts = .ok e rest := by
    have e1 : pMul (g + 2) ts
        = (match pUn (g + 1) ts with | .ok e r => pMulR (g + 1) e r | x => x) := by rfl
    rw [e1, hun]
    exact pMulR_stop g e rest hstop
  have hadd : pAdd (g + 3) ts = .ok e rest := by
    have e1 : pAdd (g + 3) ts
        = (match pMul (g + 2) ts with | .ok e r => pAddR (g + 2) e r | x => x) := by rfl
    rw [e1, hmul]
    exact pAddR_stop (g + 1) e rest hstop
  have hcmp : pCmp (g + 4) ts = .ok e rest := by
    have e1 : pCmp (g + 4) ts
        = (match pAdd (g + 3) ts with
           | .ok a r =>
             (match cmpOp r with
              | some (op, r2) =>
                (match pAdd (g + 3) r2 with
                 | .ok b r3 =>
                   (match cmpOp r3 with
                    | some _ => .nm
                    | Option.none => .ok (.bin op a b) r3)
                 | x => x)
              | Option.none => .ok a r)
           | x => x) := by rfl
    rw [e1, hadd]
    dsimp only
    rw [cmpOp_stop rest hstop]
  have hnot : pNot (g + 5) ts = .ok e rest := by
    rcases ts with _ | ⟨t, r⟩
    · rw [show pNot (g + 5) [] = pCmp (g + 4) [] from rfl, hcmp]
    · have ht : t ≠ .knot := fun h => hknot r (by rw [h])
      rw [pNot_pass (g + 4) t r ht, hcmp]
  have hand : pAnd (g + 6) ts = .ok e rest := by
    have e1 : pAnd (g + 6) ts
        = (match pNot (g + 5) ts with | .ok e r => pAndR (g + 5) e r | x => x) := by rfl
    rw [e1, hnot]
    exact pAndR_stop (g + 4) e rest hstop
  have e1 : pOr (g + 7) ts
      = (match pAnd (g + 6) ts with | .ok e r => pOrR (g + 6) e r | x => x) := by rfl
  rw [e1, hand]
  exact pOrR_stop (g + 5) e rest hstop

theorem reprToks_head_not_knot (v : Value) (rest : List Tok) :
    ∀ r', reprToks v ++ rest ≠ .knot :: r' := by
  intro r' h
  rcases v with n | b | s | l | _
  · rcases n with n | n <;> simp [reprToks] at h
  · cases b <;> simp [reprToks] at h
  · simp [reprToks] at h
  · simp [reprToks] at h
  · simp [reprToks] at h

mutual
/-- Parser fuel needed at the unary level for a value's repr tokens. -/
def pbndU : Value → Nat
  | .int (.ofNat _) => 2
  | .int (.negSucc _) => 3
  | .bool _ => 2
  | .none => 2
  | .str _ => 2
  | .list l => pbndL l + 2

/-- Parser fuel needed by `pArr` for a non-empty element tail. -/
def pbndL : List Value → Nat
  | [] => 0
  | v :: l => pbndU v + 8 + pbndL l
end

/-- One unfolding step of `pArr` as a named function of the inner parse
result, so the arm selection can be stated and rewritten. -/
def pArrStep (g : Nat) (acc : ExprList) : PRes → PRes
  | .ok e r =>
    (match r with
     | .rbrack :: r2 => postAtom (.elist (acc.snoc e)) r2
     | .comma :: .rbrack :: r2 => postAtom (.elist (acc.snoc e)) r2
     | .comma :: r2 => pArr g (acc.snoc e) r2
     | _ => .fail)
  | x => x

theorem pArrStep_rbrack (g : Nat) (acc : ExprList) (e : Expr) (rest : List Tok) :
    pArrStep g acc (.ok e (.rbrack :: rest)) = postAtom (.elist (acc.snoc e)) rest := rfl

theorem pArrStep_comma (g : Nat) (acc : ExprList) (e : Expr) (t : Tok) (r2 : List Tok)
    (ht : t ≠ .rbrack) :
    pArrStep g acc (.ok e (.comma :: t :: r2)) = pArr g (acc.snoc e) (t :: r2) := by
  cases t <;> first | rfl | exact absurd rfl ht

theorem pAtom_lbrack (f : Nat) (t : Tok) (r : List Tok) (ht : t ≠ .rbrack) :
    pAtom (f + 1) (.lbrack :: t :: r) = pArr f .nil (t :: r) := by
  cases t <;> first | rfl | exact absurd rfl ht

theorem reprToks_append_shape (w : Value) (S : List Tok) :
    ∃ t r2, reprToks w ++ S = t :: r2 ∧ t ≠ .rbrack := by
  rcases w with m | b | s | lw | _
  · rcases m with m | m
    · exact ⟨.int m, S, by simp [reprToks], by simp⟩
    · exact ⟨.minus, .int (m + 1) :: S, by simp [reprToks], by simp⟩
  · cases b
    · exact ⟨.kfalse, S, by simp [reprToks], by simp⟩
    · exact ⟨.ktrue, S, by simp [reprToks], by simp⟩
  · exact ⟨.str s, S, by simp [reprToks], by simp⟩
  · exact ⟨.lbrack, (reprToksL lw ++ [.rbrack]) ++ S, by simp [reprToks], by simp⟩
  · exact ⟨.knone, S, by simp [reprToks], by simp⟩

mutual
theorem pOr_repr : ∀ (v : Value) (rest : List Tok) (f : Nat),
    pbndU v + 7 ≤ f → stopTok rest →
    pOr f (reprToks v ++ rest) = .ok (exprOfVal v) rest
  | v, rest, f, hf, hstop => by
    obtain ⟨g, rfl⟩ : ∃ g, f = g + 7 := ⟨f - 7, by omega⟩
    exact lift_chain g _ rest _ (reprToks_head_not_knot v rest) hstop
      (pUn_repr v rest (g + 1) (by omega) hstop)
  termination_by v _ _ _ _ => (sizeOf v, 1)

theorem pUn_repr : ∀ (v : Value) (rest : List Tok) (f : Nat),
    pbndU v ≤ f → stopTok rest →
    pUn f (reprToks v ++ rest) = .ok (exprOfVal v) rest
  | .int (.ofNat n), rest, f, hf, hstop => by
    obtain ⟨g, rfl⟩ : ∃ g, f = g + 2 := ⟨f - 2, by have h2 : 2 ≤ f := hf; omega⟩
    have e1 : pUn (g + 2) (reprToks (Value.int (Int.ofNat n)) ++ rest)
        = postAtom (.lit (.int n)) rest := by rfl
    rw [e1, postAtom_stop _ _ hstop]
    rfl
  | .int (.negSucc n), rest, f, hf, hstop => by
    obtain ⟨g, rfl⟩ : ∃ g, f = g + 3 := ⟨f - 3, by have h2 : 3 ≤ f := hf; omega⟩
    have e1 : pUn (g + 3) (reprToks (Value.int (Int.negSucc n)) ++ rest)
        = (match pUn (g + 2) ((.int (n + 1) : Tok) :: rest) with
           | .ok e r2 => .ok (.un .neg e) r2
           | x => x) := by rfl
    have e2 : pUn (g + 2) ((.int (n + 1) : Tok) :: rest)
        = postAtom (.lit (.int (n + 1))) rest := by rfl
    rw [e1, e2, postAtom_stop _ _ hstop]
    rfl
  | .bool true, rest, f, hf, hstop => by
    obtain ⟨g, rfl⟩ : ∃ g, f = g + 2 := ⟨f - 2, by have h2 : 2 ≤ f := hf; omega⟩
    have e1 : pUn (g + 2) (reprToks (Value.bool true) ++ rest)
        = postAtom (.lit (.bool true)) rest := by rfl
    rw [e1, postAtom_stop _ _ hstop]
    rfl
  | .bool false, rest, f, hf, hstop => by
    obtain ⟨g, rfl⟩ : ∃ g, f = g + 2 := ⟨f - 2, by have h2 : 2 ≤ f := hf; omega⟩
    have e1 : pUn (g + 2) (reprToks (Value.bool false) ++ rest)
        = postAtom (.lit (.bool false)) rest := by rfl
    rw [e1, postAtom_stop _ _ hstop]
    rfl
  | .none, rest, f, hf, hstop => by
    obtain ⟨g, rfl⟩ : ∃ g, f = g + 2 := ⟨f - 2, by have h2 : 2 ≤ f := hf; omega⟩
    have e1 : pUn (g + 2) (reprToks Value.none ++ rest)
        = postAtom (.lit .none) rest := by rfl
    rw [e1, postAtom_stop _ _ hstop]
    rfl
  | .str s, rest, f, hf, hstop => by
    obtain ⟨g, rfl⟩ : ∃ g, f = g + 2 := ⟨f - 2, by have h2 : 2 ≤ f := hf; omega⟩
    have e1 : pUn (g + 2) (reprToks (Value.str s) ++ rest)
        = postAtom (.lit (.str s)) rest := by rfl
    rw [e1, postAtom_stop _ _ hstop]
    rfl
  | .list [], rest, f, hf, hstop => by
    obtain ⟨g, rfl⟩ : ∃ g, f = g + 2 := ⟨f - 2, by have h2 : 2 ≤ f := hf; omega⟩
    have e1 : pUn (g + 2) (reprToks (Value.list []) ++ rest)
        = postAtom (.elist .nil) rest := by rfl
    rw [e1, postAtom_stop _ _ hstop]
    rfl
  | .list (v :: l), rest, f, hf, hstop => by
    have hb0 : pbndL (v :: l) + 2 ≤ f := hf
    obtain ⟨g, rfl⟩ : ∃ g, f = g + 2 := ⟨f - 2, by omega⟩
    have hb : pbndL (v :: l) ≤ g := by omega
    have hsep : reprToks (Value.list (v :: l)) ++ rest
        = .lbrack :: (reprToks v ++ sepTailR rest l) := by
      rw [show reprToks (Value.list (v :: l))
          = .lbrack :: (reprToksL (v :: l) ++ [.rbrack]) from rfl]
      rw [show (Tok.lbrack :: (reprToksL (v :: l) ++ [Tok.rbrack])) ++ rest
          = .lbrack :: ((reprToksL (v :: l) ++ [Tok.rbrack]) ++ rest) from rfl]
      rw [List.append_assoc]
      rw [show ([Tok.rbrack] ++ rest) = Tok.rbrack :: rest from rfl]
      rw [sepTailR_eq rest v l]
    obtain ⟨t, r2, hts, htn⟩ := reprToks_append_shape v (sepTailR rest l)
    have e0 : pUn (g + 2) (.lbrack :: (reprToks v ++ sepTailR rest l))
        = pAtom (g + 1) (.lbrack :: (reprToks v ++ sepTailR rest l)) := by rfl
    rw [hsep, e0, hts, pAtom_lbrack g t r2 htn, ← hts,
      pArr_repr l v .nil rest g hb hstop]
    rfl
  termination_by v _ _ _ _ => (sizeOf v, 0)

theorem pArr_repr : ∀ (l : List Value) (v : Value) (acc : ExprList) (rest : List Tok)
    (f : Nat), pbndL (v :: l) ≤ f → stopTok rest →
    pArr f acc (reprToks v ++ sepTailR rest l)
      = .ok (.elist (appendEL acc (.cons (exprOfVal v) (exprOfValL l)))) rest
  | [], v, acc, rest, f, hf, hstop => by
    have hb : pbndU v + 8 ≤ f := hf
    obtain ⟨g, rfl⟩ : ∃ g, f = g + 1 := ⟨f - 1, by omega⟩
    have e1 : pArr (g + 1) acc (reprToks v ++ sepTailR rest [])
        = pArrStep g acc (pOr g (reprToks v ++ (.rbrack :: rest))) := by rfl
    rw [e1, pOr_repr v (.rbrack :: rest) g (by omega) (Or.inr rfl), pArrStep_rbrack,
      postAtom_stop _ _ hstop, show exprOfValL [] = ExprList.nil from rfl,
      appendEL_cons_nil]
  | w :: l2, v, acc, rest, f, hf, hstop => by
    have hb : pbndU v + 8 + pbndL (w :: l2) ≤ f := hf
    obtain ⟨g, rfl⟩ : ∃ g, f = g + 1 := ⟨f - 1, by omega⟩
    have e1 : pArr (g + 1) acc (reprToks v ++ sepTailR rest (w :: l2))
        = pArrStep g acc
            (pOr g (reprToks v ++ (.comma :: (reprToks w ++ sepTailR rest l2)))) := by rfl
    obtain ⟨t, r2, hts, htn⟩ := reprToks_append_shape w (sepTailR rest l2)
    rw [e1, pOr_repr v (.comma :: (reprToks w ++ sepTailR rest l2)) g (by omega)
        (Or.inl rfl), hts, pArrStep_comma g acc _ t r2 htn, ← hts,
      pArr_repr l2 w (acc.snoc (exprOfVal v)) rest g (by omega) hstop, appendEL_snoc]
    rfl
  termination_by l v _ _ _ _ _ => (sizeOf v + sizeOf l, 2)
end

mutual
theorem pbndU_le : ∀ (v : Value), pbndU v + 2 ≤ 6 * (reprToks v).length
  | .int (.ofNat n) => by simp [pbndU, reprToks]
  | .int (.negSucc n) => by simp [pbndU, reprToks]
  | .bool true => by simp [pbndU, reprToks]
  | .bool false => by simp [pbndU, reprToks]
  | .none => by simp [pbndU, reprToks]
  | .str s => by simp [pbndU, reprToks]
  | .list l => by
    have hB := pbndL_le l
    simp only [pbndU, reprToks, List.length_cons, List.length_append, List.length_singleton]
    omega

theorem pbndL_le : ∀ (l : List Value), pbndL l ≤ 6 * (reprToksL l).length + 8
  | [] => by simp [pbndL]
  | [v] => by
    have hA := pbndU_le v
    simp only [pbndL, reprToksL]
    omega
  | v :: w :: l => by
    have hA := pbndU_le v
    have hB := pbndL_le (w :: l)
    have h3 : pbndL (w :: l) = pbndU w + 8 + pbndL l := rfl
    simp only [pbndL, reprToksL, List.length_append, List.length_cons]
    omega
end

theorem parseToks_repr (v : Value) : parseToks (reprToks v) = .ok (exprOfVal v) := by
  have hb := pbndU_le v
  have h := pOr_repr v [] (6 * (reprToks v).length + 20) (by omega) trivial
  rw [List.append_nil] at h
  simp only [parseToks]
  rw [h]

mutual
theorem evalA_exprOfVal : ∀ (intr : Bool) (vars : List (String × Value)) (v : Value),
    evalA intr vars (exprOfVal v) = .ok v
  | _, _, .int (.ofNat n) => rfl
  | _, _, .int (.negSucc n) => rfl
  | _, _, .bool true => rfl
  | _, _, .bool false => rfl
  | _, _, .none => rfl
  | _, _, .str s => rfl
  | intr, vars, .list l => by
    have h := evalAL_exprOfValL intr vars l
    have e1 : evalA intr vars (exprOfVal (Value.list l))
        = (match evalAL intr vars (exprOfValL l) with
           | .ok vs => .ok (.list vs)
           | .fail => .fail
           | .nm => .nm) := by rfl
    rw [e1, h]

theorem evalAL_exprOfValL : ∀ (intr : Bool) (vars : List (String × Value))
    (l : List Value), evalAL intr vars (exprOfValL l) = .ok l
  | _, _, [] => rfl
  | intr, vars, v :: r => by
    have e1 : evalAL intr vars (exprOfValL (v :: r))
        = (match evalA intr vars (exprOfVal v) with
           | .ok v2 =>
             (match evalAL intr vars (exprOfValL r) with
              | .ok vs => .ok (v2 :: vs)
              | .fail => .fail
              | .nm => .nm)
           | .fail => .fail
           | .nm => .nm) := by rfl
    rw [e1, evalA_exprOfVal intr vars v, evalAL_exprOfValL intr vars r]
end

mutual
theorem spentRepr_le : ∀ (v : Value), spentRepr v ≤ (reprChars v).length
  | .int (.ofNat n) => by
    have h := (natToChars_spec n).2.1
    simp only [spentRepr, reprChars, intToChars]
    cases hn : natToChars n with
    | nil => exact absurd hn h
    | cons c r => simp
  | .int (.negSucc n) => by
    have h := (natToChars_spec (n + 1)).2.1
    simp only [spentRepr, reprChars, intToChars, List.length_cons]
    cases hn : natToChars (n + 1) with
    | nil => exact absurd hn h
    | cons c r => simp
  | .bool true => by simp [spentRepr, reprChars]
  | .bool false => by simp [spentRepr, reprChars]
  | .none => by simp [spentRepr, reprChars]
  | .str s => by simp [spentRepr, reprChars]
  | .list l => by
    have h := spentReprL_le l
    simp only [spentRepr, reprChars, List.length_cons, List.length_append,
      List.length_singleton]
    omega

theorem spentReprL_le : ∀ (l : List Value), spentReprL l ≤ (reprCharsL l).length
  | [] => by simp [spentReprL, reprCharsL]
  | [v] => by
    have h := spentRepr_le v
    simp only [spentReprL, reprCharsL]
    exact h
  | v :: w :: l => by
    have h1 := spentRepr_le v
    have h2 := spentReprL_le (w :: l)
    have h3 : spentReprL (v :: w :: l) = spentRepr v + 2 + spentReprL (w :: l) := rfl
    have h4 : reprCharsL (v :: w :: l) = reprChars v ++ ',' :: ' ' :: reprCharsL (w :: l) := rfl
    rw [h3, h4]
    simp only [List.length_append, List.length_cons]
    omega
end

theorem tokenizeStr_repr (v : Value) : tokenizeStr (reprChars v) = .ok (reprToks v) := by
  have hle := spentRepr_le v
  obtain ⟨g, hg⟩ : ∃ g, (reprChars v).length + 1 = (g + 1) + spentRepr v :=
    ⟨(reprChars v).length - spentRepr v, by omega⟩
  have h := tokenize_repr v [] (g + 1) trivial
  rw [List.append_nil] at h
  have h2 : tokenize (g + 1) ([] : List Char) = .ok [] := rfl
  rw [h2] at h
  simp only [trList, List.append_nil] at h
  simp only [tokenizeStr]
  rw [hg, h]

theorem evalPipeline_repr (intr : Bool) (vars : List (String × Value)) (v : Value) :
    evalPipeline intr vars (reprChars v) = .ok v := by
  simp only [evalPipeline]
  rw [tokenizeStr_repr v]
  dsimp only
  rw [parseToks_repr v]
  dsimp only
  rw [evalA_exprOfVal intr vars v]

theorem splitRBrack_no : ∀ (ds : List Char), (∀ c ∈ ds, c ≠ ']') → ∀ (post : List Char),
    splitRBrack (ds ++ ']' :: post) = some (ds, post)
  | [], _, post => rfl
  | c :: ds, h, post => by
    have hc : c ≠ ']' := h c (by simp)
    have e1 : splitRBrack ((c :: ds) ++ ']' :: post)
        = (splitRBrack (ds ++ ']' :: post)).map (fun p => (c :: p.1, p.2)) := by
      rw [splitRBrack.eq_def]
      split
      · simp_all
      · simp_all
      · simp_all
    rw [e1, splitRBrack_no ds (fun c2 hc2 => h c2 (by simp [hc2])) post]
    rfl

/-- Every character of an integer's decimal text is a digit or the minus
sign. -/
theorem intToChars_chars (k : Int) :
    ∀ c ∈ intToChars k, c ∈ digitChars ∨ c = '-' := by
  intro c hc
  rcases k with n | n
  · exact Or.inl ((natToChars_spec n).2.2 c hc)
  · rcases List.mem_cons.mp hc with h2 | h2
    · exact Or.inr h2
    · exact Or.inl ((natToChars_spec (n + 1)).2.2 c h2)

theorem intToChars_ne (k : Int) :
    ∀ c ∈ intToChars k, c ≠ ']' ∧ c ≠ 'm' := by
  intro c hc
  rcases intToChars_chars k c hc with h | h
  · fin_cases h <;> exact ⟨by decide, by decide⟩
  · subst h
    exact ⟨by decide, by decide⟩

theorem intToChars_nonempty (k : Int) : ∃ d r, intToChars k = d :: r := by
  rcases k with n | n
  · have h := (natToChars_spec n).2.1
    cases hn : natToChars n with
    | nil => exact absurd hn h
    | cons c r => exact ⟨c, r, by simp [intToChars, hn]⟩
  · exact ⟨'-', natToChars (n + 1), rfl⟩

theorem memMatch_intToChars (k : Int) :
    memMatch (intToChars k ++ [']']) = some (intToChars k, []) := by
  obtain ⟨d, r, hd⟩ := intToChars_nonempty k
  have hno : ∀ c ∈ r, c ≠ ']' := by
    intro c hc
    exact (intToChars_ne k c (by rw [hd]; simp [hc])).1
  rw [hd]
  have e1 : memMatch ((d :: r) ++ [']'])
      = (splitRBrack (r ++ ']' :: [])).map (fun p => (d :: p.1, p.2)) := rfl
  rw [e1, splitRBrack_no r hno []]
  rfl

/-- `substMemWith` is the identity on text with no `m` character. -/
theorem substMemWith_no_m (ev : String → Res Value) (mem : List (Int × Value)) :
    ∀ (g : Nat) (cs : List Char), (∀ c ∈ cs, c ≠ 'm') → cs.length < g →
    substMemWith ev mem g cs = .ok cs := by
  intro g
  induction g with
  | zero =>
    intro cs h hlen
    omega
  | succ g ih =>
    intro cs h hlen
    cases cs with
    | nil => rfl
    | cons c rest =>
      have hc : c ≠ 'm' := h c (by simp)
      have e1 : substMemWith ev mem (g + 1) (c :: rest)
          = bindR (substMemWith ev mem g rest) (fun cs2 => .ok (c :: cs2)) := by
        rw [substMemWith.eq_def]
        dsimp only
        rw [if_neg hc]
      rw [e1, ih rest (fun c2 hc2 => h c2 (by simp [hc2])) (by simp at hlen; omega)]
      rfl

theorem evalStr_intchars (m : Nat) (k : Int) (σ : Interp) :
    evalStr (m + 1) (String.mk (intToChars k)) σ = .ok (.int k) := by
  have hno : ∀ c ∈ intToChars k, c ≠ 'm' := fun c hc => (intToChars_ne k c hc).2
  have hsub : substMem (fun s => evalStr m s σ) σ.mem (intToChars k)
      = .ok (intToChars k) :=
    substMemWith_no_m _ _ ((intToChars k).length + 1) (intToChars k) hno (by omega)
  have e1 : evalStr (m + 1) (String.mk (intToChars k)) σ
      = (match substMem (fun s => evalStr m s σ) σ.mem (intToChars k) with
         | .ok cs =>
           (match evalPipeline true σ.vars cs with
            | .ok v => .ok v
            | .fail => .ok (fallbackVal (String.mk (intToChars k)))
            | .nm => .nm)
         | .err e => .err e
         | .fuelOut => .fuelOut
         | .nm => .nm) := by rfl
  rw [e1, hsub]
  dsimp only
  rw [show intToChars k = reprChars (Value.int k) from rfl,
    evalPipeline_repr true σ.vars (Value.int k)]

/-- The read expression text `mem[k]` for a concrete integer index. -/
def memReadText (k : Int) : String :=
  String.mk ('m' :: 'e' :: 'm' :: '[' :: (intToChars k ++ [']']))

theorem evalStr_memread (f : Nat) (k : Int) (σ : Interp) (hf : 2 ≤ f) :
    evalStr f (memReadText k) σ = .ok (memGet σ.mem k) := by
  obtain ⟨m, rfl⟩ : ∃ m, f = m + 2 := ⟨f - 2, by omega⟩
  have e1 : evalStr (m + 2) (memReadText k) σ
      = (match substMem (fun s => evalStr (m + 1) s σ) σ.mem (memReadText k).data with
         | .ok cs =>
           (match evalPipeline true σ.vars cs with
            | .ok v => .ok v
            | .fail => .ok (fallbackVal (memReadText k))
            | .nm => .nm)
         | .err e => .err e
         | .fuelOut => .fuelOut
         | .nm => .nm) := by rfl
  have hsub : substMem (fun s => evalStr (m + 1) s σ) σ.mem (memReadText k).data
      = .ok (reprChars (memGet σ.mem k)) := by
    rw [show (memReadText k).data
        = 'm' :: 'e' :: 'm' :: '[' :: (intToChars k ++ [']']) from rfl]
    rw [show substMem (fun s => evalStr (m + 1) s σ) σ.mem
          ('m' :: 'e' :: 'm' :: '[' :: (intToChars k ++ [']']))
        = substMemWith (fun s => evalStr (m + 1) s σ) σ.mem
            (('m' :: 'e' :: 'm' :: '[' :: (intToChars k ++ [']'])).length + 1)
            ('m' :: 'e' :: 'm' :: '[' :: (intToChars k ++ [']'])) from rfl]
    rw [show ('m' :: 'e' :: 'm' :: '[' :: (intToChars k ++ [']'])).length + 1
        = ((intToChars k).length + 5) + 1 from by simp]
    have e2 : substMemWith (fun s => evalStr (m + 1) s σ) σ.mem
        (((intToChars k).length + 5) + 1)
        ('m' :: 'e' :: 'm' :: '[' :: (intToChars k ++ [']']))
        = (match memMatch (intToChars k ++ [']']) with
           | Option.none =>
             bindR (substMemWith (fun s => evalStr (m + 1) s σ) σ.mem
                 ((intToChars k).length + 5) ('e' :: 'm' :: '[' :: (intToChars k ++ [']'])))
               (fun cs2 => .ok ('m' :: cs2))
           | some (inner, post) =>
             match evalStr (m + 1) (String.mk inner) σ with
             | .ok v =>
               (match toIntPy v with
                | some k2 =>
                  bindR (substMemWith (fun s => evalStr (m + 1) s σ) σ.mem
                      ((intToChars k).length + 5) post)
                    (fun cs2 => .ok (reprChars (memGet σ.mem k2) ++ cs2))
                | Option.none => .err .hostExc)
             | .err e => .err e
             | .fuelOut => .fuelOut
             | .nm => .nm) := by rfl
    rw [e2, memMatch_intToChars k]
    dsimp only
    rw [evalStr_intchars m k σ]
    dsimp only
    rw [show substMemWith (fun s => evalStr (m + 1) s σ) σ.mem
          ((intToChars k).length + 5) ([] : List Char) = .ok [] from rfl]
    simp [bindR]
    rfl
  rw [e1, hsub]
  dsimp only
  rw [evalPipeline_repr true σ.vars (memGet σ.mem k)]

/-- C8: memory store round-trip.  Reading `mem[k]` (the textual expression)
after a write of `v` to index `k` yields exactly `v` — the stored value is
spliced back as its `repr` text and re-parsed to the same value — and reading
any never-written index yields the number zero, never an error. -/
theorem c8_mem_roundtrip (f : Nat) (k : Int) (v : Value) (σ : Interp) (hf : 2 ≤ f) :
    evalStr f (memReadText k) { σ with mem := aset k v σ.mem } = .ok v ∧
    (alookup σ.mem k = Option.none → evalStr f (memReadText k) σ = .ok (Value.int 0)) := by
  constructor
  · rw [evalStr_memread f k _ hf]
    simp only [memGet]
    rw [alookup_aset_self]
    rfl
  · intro h
    rw [evalStr_memread f k σ hf]
    simp only [memGet]
    rw [h]
    rfl

/-- Witness: a stored string round-trips through the `mem[3]` read; the
unwritten index 3 reads as zero; the end-to-end program
`mem[7] = 5` / `out mem[7]` / `out mem[8]` emits `5` then `0`. -/
theorem c8_witness :
    2 ≤ 5 ∧
    evalStr 5 (memReadText 3)
        { Interp.init with mem := aset 3 (Value.str "hi") Interp.init.mem }
      = .ok (.str "hi") ∧
    evalStr 5 (memReadText 3) Interp.init = .ok (Value.int 0) ∧
    outputOf (runString 80 "mem[7] = 5\nout mem[7]\nout mem[8]")
      = some [Value.int 5, Value.int 0] :=
  ⟨by decide,
   (c8_mem_roundtrip 5 3 (Value.str "hi") Interp.init (by decide)).1,
   (c8_mem_roundtrip 5 3 (Value.str "hi") Interp.init (by decide)).2 rfl,
   by rfl⟩
